import Mathlib

/-!
Verification development for the SFTP client's transfer engine
(`client/client.go`, `client/upload.go`, `client/download.go`).

The Go code is shallowly embedded: strings are Lean `String`s (treated as
their `List Char` of code points; paths in this code base are ASCII, where
Go's byte-wise operations and the code-point-wise operations agree),
machine integers are `Int`/`Nat`, the SFTP server and the local filesystem
are explicit parameters (either pure trees or oracle functions), and the
engine's worker concurrency is modelled by the sequential linearization of
its loop (the claims under study are about counts, sets of errors and
returned values, which are interleaving-independent).

Path helpers from Go's standard `path` package (`Clean`, `Dir`, `Join`,
`IsAbs`) are re-implemented segment-wise below; `path.Clean`'s
stack-machine over bytes is implemented as the equivalent stack-machine
over `/`-separated segments.
-/

/-- Segment `..`, the parent marker of `path.Clean`. -/
def ddSeg : List Char := ['.', '.']

/-- Segment `.`. -/
def dotSeg : List Char := ['.']

/-- Prepend a character to the first field of a split result. -/
def consHead (c : Char) : List (List Char) → List (List Char)
  | [] => [[c]]
  | s :: ss => (c :: s) :: ss

/-- `strings.Split(s, "/")` on code points: splits at every `/`, keeping
empty fields, never returning an empty list. -/
def splitSlash : List Char → List (List Char)
  | [] => [[]]
  | c :: rest => if c = '/' then [] :: splitSlash rest else consHead c (splitSlash rest)

/-- Inverse of `splitSlash`: interleave `/` between the parts. -/
def joinSlash : List (List Char) → List Char
  | [] => []
  | [s] => s
  | s :: t :: rest => s ++ '/' :: joinSlash (t :: rest)

/-- `path.Clean`'s handling of a `..` element against the stack of output
segments (head = most recently emitted segment): pop a poppable segment,
accumulate when nothing is poppable and the path is relative, drop at the
root of an absolute path. -/
def ddPop (rooted : Bool) : List (List Char) → List (List Char)
  | [] => if rooted then [] else [ddSeg]
  | t :: rest => if t = ddSeg then ddSeg :: t :: rest else rest

/-- One step of `path.Clean`'s element loop: empty and `.` segments are
dropped, `..` is handled by `ddPop`, anything else is emitted. -/
def cleanStep (rooted : Bool) (acc : List (List Char)) (s : List Char) : List (List Char) :=
  if s = [] ∨ s = dotSeg then acc
  else if s = ddSeg then ddPop rooted acc
  else s :: acc

/-- The element loop of `path.Clean` over a list of segments. -/
def cleanSegsAux (rooted : Bool) : List (List Char) → List (List Char) → List (List Char)
  | acc, [] => acc.reverse
  | acc, s :: rest => cleanSegsAux rooted (cleanStep rooted acc s) rest

/-- `path.Clean` at the segment level. -/
def cleanSegs (rooted : Bool) (parts : List (List Char)) : List (List Char) :=
  cleanSegsAux rooted [] parts

/-- Reassemble a cleaned segment list into a path, restoring the leading
`/` for rooted paths and producing `.` for an empty relative result. -/
def renderPath (rooted : Bool) (segs : List (List Char)) : List Char :=
  if rooted then '/' :: joinSlash segs
  else if joinSlash segs = [] then dotSeg
  else joinSlash segs

/-- Whether a character list starts with `/`. -/
def headIsSlash : List Char → Bool
  | [] => false
  | c :: _ => decide (c = '/')

/-- Go `path.Clean` on code points. -/
def pathCleanL (l : List Char) : List Char :=
  if l = [] then dotSeg
  else renderPath (headIsSlash l) (cleanSegs (headIsSlash l) (splitSlash l))

/-- Go `path.Clean`. -/
def pathClean (p : String) : String :=
  String.mk (pathCleanL p.data)

/-- Go `path.Dir` on code points: everything up to and including the final
`/`, then `Clean`; `.` when there is no `/`. -/
def pathDirL (l : List Char) : List Char :=
  match splitSlash l with
  | [] => dotSeg
  | [_] => dotSeg
  | p₁ :: p₂ :: rest => pathCleanL (joinSlash ((p₁ :: p₂ :: rest).dropLast) ++ ['/'])

/-- Go `path.Dir`. -/
def pathDir (p : String) : String :=
  String.mk (pathDirL p.data)

/-- Go `path.Join` restricted to two elements: empty elements are dropped,
the rest joined by `/` and cleaned; all-empty input yields the empty
string. -/
def pathJoin (a b : String) : String :=
  if a = "" ∧ b = "" then ""
  else if a = "" then pathClean b
  else if b = "" then pathClean a
  else String.mk (pathCleanL (a.data ++ '/' :: b.data))

/-- Go `path.IsAbs`. -/
def isAbsPath (p : String) : Bool :=
  headIsSlash p.data

/-- Go `strings.HasPrefix(p, "~/")`. -/
def hasTildeSlash (p : String) : Bool :=
  match p.data with
  | c₁ :: c₂ :: _ => decide (c₁ = '~') && decide (c₂ = '/')
  | _ => false

/-- Go `p[2:]` for a string known to start with the two one-byte
characters `~/`. -/
def dropTwo (p : String) : String :=
  String.mk (p.data.drop 2)

/-- `Client.resolvePath` / `Client.ResolveRemotePath` (client.go): resolve
a user-supplied remote path against the remote working directory `wd`.
`home` is the result of `sftpClient.Getwd()` (`none` models its error
case, in which the code falls back to `wd` for `~` and falls through to
the generic rules for `~/…`). -/
def resolvePath (wd : String) (home : Option String) (p : String) : String :=
  if p = "" then wd
  else if p = "~" then
    match home with
    | some h => h
    | none => wd
  else if hasTildeSlash p then
    match home with
    | some h => pathClean (pathJoin h (dropTwo p))
    | none =>
      if isAbsPath p then pathClean p
      else pathClean (pathJoin wd p)
  else if isAbsPath p then pathClean p
  else pathClean (pathJoin wd p)

/-- `Client.resolveLocalPath` / `Client.ResolveLocalPath` (client.go): the
same algorithm for the local namespace.  On POSIX `filepath.Clean`,
`filepath.Join` and `filepath.IsAbs` coincide with the `path` package, so
the body is identical; `home` is `os.UserHomeDir()` (`none` = error). -/
def resolveLocalPath (wd : String) (home : Option String) (p : String) : String :=
  if p = "" then wd
  else if p = "~" then
    match home with
    | some h => h
    | none => wd
  else if hasTildeSlash p then
    match home with
    | some h => pathClean (pathJoin h (dropTwo p))
    | none =>
      if isAbsPath p then pathClean p
      else pathClean (pathJoin wd p)
  else if isAbsPath p then pathClean p
  else pathClean (pathJoin wd p)

/-- A well-formed path segment: non-empty, not `.`, free of `/`. -/
def SegOK (s : List Char) : Prop :=
  s ≠ [] ∧ s ≠ dotSeg ∧ '/' ∉ s

instance (s : List Char) : Decidable (SegOK s) := by
  unfold SegOK
  infer_instance

/-- Normal form of `path.Clean`'s segment output: every segment is
well-formed, the `..` segments form a leading run, and a rooted path has
none at all. -/
def NormSegs (rooted : Bool) (segs : List (List Char)) : Prop :=
  (∀ s ∈ segs, SegOK s) ∧
    ∃ k tl, segs = List.replicate k ddSeg ++ tl ∧ (∀ s ∈ tl, s ≠ ddSeg) ∧
      (rooted = true → k = 0)

/-- Invariant on the (reversed) accumulator of `cleanSegsAux`: segments
well-formed, with the `..` segments forming a trailing run (they end up
leading after the final reverse), none if rooted. -/
def RevInv (rooted : Bool) (acc : List (List Char)) : Prop :=
  (∀ s ∈ acc, SegOK s) ∧
    ∃ tl k, acc = tl ++ List.replicate k ddSeg ∧ (∀ s ∈ tl, s ≠ ddSeg) ∧
      (rooted = true → k = 0)

/-- `transferTask` (upload.go): one file-transfer descriptor. -/
structure transferTask where
  localPath : String
  remotePath : String
  isUpload : Bool
  size : Int
  deriving DecidableEq

/-- `MaxConcurrentTransfers` (client.go). -/
def MaxConcurrentTransfers : Int := 4

/-- `UploadOptions` (upload.go).  Field defaults are Go's zero values, so a
struct literal that omits a field leaves it at the zero value, as in Go. -/
structure UploadOptions where
  Recursive : Bool := false
  ShowProgress : Bool := false
  Concurrency : Int := 0
  MaxDepth : Int := 0
  deriving DecidableEq

/-- `DownloadOptions` (download.go), same conventions. -/
structure DownloadOptions where
  Recursive : Bool := false
  ShowProgress : Bool := false
  Concurrency : Int := 0
  MaxDepth : Int := 0
  deriving DecidableEq

/-- `TransferOptions` (upload.go), same conventions. -/
structure TransferOptions where
  Recursive : Bool := false
  ShowProgress : Bool := false
  Concurrency : Int := 0
  MaxDepth : Int := 0
  deriving DecidableEq

/-- The struct literal `UploadGlob` and `UploadDir` substitute when called
with `opts == nil` (upload.go): `ShowProgress`, `Concurrency` and
`MaxDepth` are set, `Recursive` is left at its zero value. -/
def uploadNilOpts : UploadOptions :=
  { ShowProgress := true, Concurrency := MaxConcurrentTransfers, MaxDepth := -1 }

/-- The struct literal `DownloadGlob` and `DownloadDir` substitute when
called with `opts == nil` (download.go). -/
def downloadNilOpts : DownloadOptions :=
  { ShowProgress := true, Concurrency := MaxConcurrentTransfers, MaxDepth := -1 }

/-- `DefaultTransferOptions` (upload.go). -/
def DefaultTransferOptions : TransferOptions :=
  { Recursive := true, ShowProgress := true, Concurrency := MaxConcurrentTransfers,
    MaxDepth := -1 }

/-- The per-task context wrap of `executeTasks`'s error recording:
`fmt.Errorf("upload %s: %w", t.localPath, err)` resp.
`fmt.Errorf("download %s: %w", t.remotePath, err)`. -/
def wrapTaskErr (t : transferTask) (e : String) : String :=
  if t.isUpload then "upload " ++ t.localPath ++ ": " ++ e
  else "download " ++ t.remotePath ++ ": " ++ e

/-- `executeTasks` (upload.go): the single task-execution engine.  The
outcome of one transfer is the oracle `tr` (`none` = success, `some e` =
the failure message, covering both transfer errors and recovered panics).
The concurrent workers are modelled by the sequential linearization of the
loop: the success counter and the error list are mutated under a mutex in
the code, so the final count and the multiset of recorded errors are the
same for every interleaving.  `errors.Join` is modelled as the list of the
joined error messages (it preserves every member). -/
def executeStep (tr : transferTask → Option String) (acc : Nat × List String)
    (t : transferTask) : Nat × List String :=
  match tr t with
  | none => (acc.1 + 1, acc.2)
  | some e => (acc.1, acc.2 ++ [wrapTaskErr t e])

def executeTasks (tr : transferTask → Option String) (tasks : List transferTask) :
    Nat × Option (List String) :=
  match tasks with
  | [] => (0, none)
  | _ =>
    let r := tasks.foldl (executeStep tr) (0, [])
    if r.2 = [] then (r.1, none) else (r.1, some r.2)

/-- A pure file tree standing for a directory listing: what `os.ReadDir`
resp. `sftpClient.ReadDir` yield at a directory whose reads all succeed. -/
inductive FSTree : Type where
  | file : String → Int → FSTree
  | dir : String → List FSTree → FSTree

/-- `collectUploadTasks` (upload.go): walk the local tree, emitting one
upload task per file; a subdirectory is skipped when
`maxDepth >= 0 && currentDepth >= maxDepth`, otherwise entered with
`currentDepth+1`.  The argument list is the `os.ReadDir` listing of
`localDir` (entries whose `Info()` fails are not modelled: every file
carries its size). -/
def collectUploadTasks (maxDepth : Int) : Int → String → String → List FSTree → List transferTask
  | _, _, _, [] => []
  | currentDepth, localDir, remoteDir, FSTree.file name size :: rest =>
    { localPath := pathJoin localDir name, remotePath := pathJoin remoteDir name,
      isUpload := true, size := size } ::
      collectUploadTasks maxDepth currentDepth localDir remoteDir rest
  | currentDepth, localDir, remoteDir, FSTree.dir name sub :: rest =>
    (if maxDepth ≥ 0 ∧ currentDepth ≥ maxDepth then []
     else collectUploadTasks maxDepth (currentDepth + 1) (pathJoin localDir name)
        (pathJoin remoteDir name) sub) ++
      collectUploadTasks maxDepth currentDepth localDir remoteDir rest

/-- `collectDownloadTasks` (upload.go): the mirror walk over the remote
tree (its eager `os.MkdirAll` of local directories is a local-filesystem
effect with no bearing on the emitted task list). -/
def collectDownloadTasks (maxDepth : Int) : Int → String → String → List FSTree → List transferTask
  | _, _, _, [] => []
  | currentDepth, remoteDir, localDir, FSTree.file name size :: rest =>
    { localPath := pathJoin localDir name, remotePath := pathJoin remoteDir name,
      isUpload := false, size := size } ::
      collectDownloadTasks maxDepth currentDepth remoteDir localDir rest
  | currentDepth, remoteDir, localDir, FSTree.dir name sub :: rest =>
    (if maxDepth ≥ 0 ∧ currentDepth ≥ maxDepth then []
     else collectDownloadTasks maxDepth (currentDepth + 1) (pathJoin remoteDir name)
        (pathJoin localDir name) sub) ++
      collectDownloadTasks maxDepth currentDepth remoteDir localDir rest

/-- Modelled from the spec: "maxDepth semantics: −1 → unbounded; 0 → only
direct children of the root; k → up to k levels of subdirectory
traversal."  `none` is the unbounded walk; `some j` may still descend
through `j` further levels of subdirectory.  `mk` builds the task of one
file from the walked source/destination paths and the size. -/
def specTasks (mk : String → String → Int → transferTask) :
    Option Nat → String → String → List FSTree → List transferTask
  | _, _, _, [] => []
  | b, src, dst, FSTree.file name size :: rest =>
    mk (pathJoin src name) (pathJoin dst name) size :: specTasks mk b src dst rest
  | b, src, dst, FSTree.dir name sub :: rest =>
    (match b with
     | none => specTasks mk none (pathJoin src name) (pathJoin dst name) sub
     | some 0 => []
     | some (j + 1) => specTasks mk (some j) (pathJoin src name) (pathJoin dst name) sub) ++
      specTasks mk b src dst rest

/-- Task maker of the upload walk: source = local, destination = remote. -/
def mkUploadTask (src dst : String) (size : Int) : transferTask :=
  { localPath := src, remotePath := dst, isUpload := true, size := size }

/-- Task maker of the download walk: source = remote, destination = local. -/
def mkDownloadTask (src dst : String) (size : Int) : transferTask :=
  { localPath := dst, remotePath := src, isUpload := false, size := size }

/-- Whether a listing contains any file at any depth. -/
def hasFileList : List FSTree → Bool
  | [] => false
  | FSTree.file _ _ :: _ => true
  | FSTree.dir _ sub :: rest => hasFileList sub || hasFileList rest

/-- The chain of parent directories walked by
`collectRemoteDirsForUpload`'s inner loop, starting at `dir` and stopping
at `/` or `.`.  The loop terminates because `path.Dir` strictly shortens
any path that still contains a `/` and maps slash-free paths to `.`; the
fuel below is passed as `length + 2`, which bounds the chain length. -/
def parentChain : Nat → String → List String
  | 0, _ => []
  | fuel + 1, dir =>
    if dir = "/" ∨ dir = "." then [] else dir :: parentChain fuel (pathDir dir)

/-- Sufficient fuel for `parentChain dir` (see the comment there). -/
def chainFuel (p : String) : Nat := p.data.length + 2

/-- The loop body of `collectRemoteDirsForUpload` for one task: walk the
parent chain, appending each directory not yet present (the Go code keeps
a set and a slice in lockstep; the slice itself serves as the set here). -/
def chainInsert : Nat → List String → String → List String
  | 0, acc, _ => acc
  | fuel + 1, acc, dir =>
    if dir = "/" ∨ dir = "." then acc
    else chainInsert fuel (if dir ∈ acc then acc else acc ++ [dir]) (pathDir dir)

/-- `strings.Count(p, "/")`. -/
def slashCount (p : String) : Nat := p.data.count '/'

/-- The comparator of `collectRemoteDirsForUpload`'s sort: ascending depth
(count of `/`), then lexicographic. -/
def dirLt (a b : String) : Prop :=
  slashCount a < slashCount b ∨ (slashCount a = slashCount b ∧ a < b)

/-- Reflexive closure of `dirLt`, the order the emitted list is sorted
by. -/
def dirLe (a b : String) : Prop := dirLt a b ∨ a = b

instance : DecidableRel dirLt := fun a b => by
  unfold dirLt
  infer_instance

instance : DecidableRel dirLe := fun a b => by
  unfold dirLe
  infer_instance

/-- `collectRemoteDirsForUpload` (upload.go): the set of remote parent
directories of the upload tasks, in first-encounter order, then sorted by
the depth-then-lexicographic comparator.  `sort.Slice` is modelled by
insertion sort: the comparator is a strict total order on the
duplicate-free collected list, so every comparison sort produces the same
output. -/
def collectRemoteDirsForUpload (tasks : List transferTask) : List String :=
  let dirs := tasks.foldl
    (fun acc t =>
      if t.isUpload then chainInsert (chainFuel (pathDir t.remotePath)) acc (pathDir t.remotePath)
      else acc) []
  List.insertionSort dirLe dirs

/-- The remote filesystem as the SFTP server exposes it to `Stat`: a
finite map from path to is-directory. -/
def FS : Type := List (String × Bool)

/-- `sftpClient.Stat` against the modelled remote filesystem: `none` means
the stat errors (path absent). -/
def statFS (σ : FS) (p : String) : Option Bool :=
  (List.lookup p σ)

/-- `ensureRemoteDir` (upload.go): ensure a remote directory exists.
`M σ p` is the server's `Mkdir` — an arbitrary function, so racy servers
(which fail the `Mkdir` yet produce the directory) are instances.  The
singleflight wrapper only coalesces concurrent duplicate calls; its body
is the sequential slow path modelled here.  The cache invalidation on
success touches only the listing cache, which is not part of the remote
filesystem state.  The recursion is over the parent chain; fuel plays the
role of the Go recursion, returning an error when exhausted (unreachable
for real paths, see `parentChain`).  `mkdirStep` is the final step: issue
`Mkdir`; on failure re-`Stat` and treat an existing directory as
success. -/
def mkdirStep (M : FS → String → Option String × FS) (σ1 : FS) (dir : String) :
    Option String × FS :=
  match M σ1 dir with
  | (none, σ2) => (none, σ2)
  | (some e, σ2) => if statFS σ2 dir = some true then (none, σ2) else (some e, σ2)

def ensureRemoteDir (M : FS → String → Option String × FS) (wd : String)
    (home : Option String) : Nat → FS → String → Option String × FS
  | 0, σ, _ => (some ("recursion limit"), σ)
  | fuel + 1, σ, dir0 =>
    let dir := resolvePath wd home dir0
    if statFS σ dir = some true then (none, σ)
    else if statFS σ dir = some true then (none, σ)
    else
      let parent := pathDir dir
      let pr := if parent = "/" ∨ parent = "." then (none, σ)
                else ensureRemoteDir M wd home fuel σ parent
      match pr with
      | (some e, σ1) => (some e, σ1)
      | (none, σ1) => mkdirStep M σ1 dir

/-- The directory listing cache: resolved path ↦ (cachedAt, entries).
Entries are the listing as an abstract value. -/
def DirCache : Type := List (String × (Nat × List String))

/-- `DirCacheTimeout` (client.go), in seconds. -/
def DirCacheTimeout : Nat := 30

/-- `Client.List` (client.go): consult the cache under the resolved path;
on a fresh hit return the cached entries, otherwise issue `ReadDir` and
cache a success under the current time.  The third component records
whether a server call was issued. -/
def listDir (readDir : String → Except String (List String)) (now : Nat)
    (wd : String) (home : Option String) (cache : DirCache) (dir : String) :
    Except String (List String) × DirCache × Bool :=
  let targetPath := resolvePath wd home dir
  let miss : Except String (List String) × DirCache × Bool :=
    match readDir targetPath with
    | Except.error e => (Except.error e, cache, true)
    | Except.ok files =>
      (Except.ok files,
        (targetPath, (now, files)) :: List.eraseP (fun kv => kv.1 == targetPath) cache,
        true)
  match List.lookup targetPath cache with
  | some (cachedAt, files) =>
    if now - cachedAt < DirCacheTimeout then (Except.ok files, cache, false) else miss
  | none => miss

/-- `strings.ContainsAny(part, "*?[]")`. -/
def hasMeta (s : List Char) : Bool :=
  s.any (fun c => decide (c = '*') || decide (c = '?') || decide (c = '[') || decide (c = ']'))

/-- The index of the first pattern segment containing a metacharacter; `0`
when none does (Go leaves `baseIdx` at its zero value then). -/
def firstMetaIdx (parts : List (List Char)) : Nat :=
  match parts.findIdx? hasMeta with
  | some i => i
  | none => 0

/-- The literal base path of `globRemote`: everything before the first
segment with a metacharacter, `/` when that is empty. -/
def globBasePath (pattern : String) : String :=
  let parts := splitSlash pattern.data
  let baseIdx := firstMetaIdx parts
  if baseIdx > 0 then
    let bp := String.mk (joinSlash (parts.take baseIdx))
    if bp = "" then "/" else bp
  else "/"

/-- `strings.Contains(pattern, "**")`. -/
def hasDoubleStar : List Char → Bool
  | [] => false
  | [_] => false
  | a :: b :: rest => (decide (a = '*') && decide (b = '*')) || hasDoubleStar (b :: rest)

/-- The entry loop of `globRemote`'s `walk`: record every entry's full
path; descend into a directory entry with the walker `subWalk` (which is
the recursive walk when the pattern contains `**` and a no-op
otherwise). -/
def globEntries (subWalk : String → List String) (dir : String) :
    List (String × Bool) → List String
  | [] => []
  | (name, isDirE) :: rest =>
    let fullPath := pathJoin dir name
    fullPath :: ((if isDirE then subWalk fullPath else []) ++ globEntries subWalk dir rest)

/-- `globRemote`'s `walk`: read the directory (`rd` is
`sftpClient.ReadDir`; `none` = unreadable, which `walk` ignores by
returning nothing) and loop over the entries.  Fuel bounds the recursion
depth; the remote tree is finite, so the Go recursion terminates and
enough fuel makes the model exact. -/
def globWalkTop (rd : String → Option (List (String × Bool))) (recurse : Bool) :
    Nat → String → List String
  | 0, _ => []
  | fuel + 1, dir =>
    match rd dir with
    | none => []
    | some entries =>
      globEntries (fun p => if recurse then globWalkTop rd recurse fuel p else []) dir entries

/-- `globRemote` (download.go): walk the remote tree from the base path,
then keep the walked paths accepted by `doublestar.Match`.  `dsMatch` is
the matcher collaborator (`Except.error` = `ErrBadPattern`); a match error
skips that file (`continue`).  The function returns `matches, nil` — the
error component is the literal `nil` of the source. -/
def globRemote (rd : String → Option (List (String × Bool)))
    (dsMatch : String → String → Except Unit Bool) (fuel : Nat) (pattern : String) :
    List String × Option String :=
  let basePath := globBasePath pattern
  let allFiles := globWalkTop rd (hasDoubleStar pattern.data) fuel basePath
  let ms := allFiles.filter (fun f =>
    match dsMatch pattern f with
    | Except.error _ => false
    | Except.ok b => b)
  (ms, none)

/-- The pattern-resolution and matching phase of `DownloadGlob`
(download.go): join a relative pattern onto the remote working directory,
run `globRemote`, wrap its error (dead code: `globRemote` never returns
one) and fail with `no files match pattern` on an empty match list. -/
def downloadGlobMatchPhase (rd : String → Option (List (String × Bool)))
    (dsMatch : String → String → Except Unit Bool) (fuel : Nat)
    (wd : String) (pattern : String) : Except String (List String) :=
  let fullPattern := if isAbsPath pattern then pattern else pathJoin wd pattern
  let r := globRemote rd dsMatch fuel fullPattern
  match r.2 with
  | some e => Except.error ("glob pattern: " ++ e)
  | none =>
    if r.1.isEmpty then Except.error ("no files match pattern: " ++ pattern)
    else Except.ok r.1

/-- `UploadDir` (upload.go) after its stat checks, on resolved paths: the
listing `entries` of `localDir` stands for the local tree (so `localDir`
exists and is a directory and all reads succeed), `ensure` is
`ensureRemoteDirsExist`, `tr` the transfer oracle of `executeTasks`.
Single errors are one-element lists in the joined-error model. -/
def UploadDirE (tr : transferTask → Option String) (ensure : List String → Option String)
    (entries : List FSTree) (localDir remoteDir : String) (opts : UploadOptions) :
    Nat × Option (List String) :=
  let tasks := collectUploadTasks opts.MaxDepth 0 localDir remoteDir entries
  if tasks.isEmpty then (0, some ["no files found in directory"])
  else
    let dirs := remoteDir :: collectRemoteDirsForUpload tasks
    match ensure dirs with
    | some e => (0, some ["create remote dirs: " ++ e])
    | none => executeTasks tr tasks

/-- `DownloadDir` (download.go) after its stat checks and `MkdirAll`, on
resolved paths, with `entries` the listing of `remoteDir`. -/
def DownloadDirE (tr : transferTask → Option String) (entries : List FSTree)
    (remoteDir localDir : String) (opts : DownloadOptions) :
    Nat × Option (List String) :=
  let tasks := collectDownloadTasks opts.MaxDepth 0 remoteDir localDir entries
  if tasks.isEmpty then (0, none)
  else executeTasks tr tasks

/-- A string in the image of `path.Clean` (and of `path.Dir`): rendered
from a normal segment list. -/
def IsCleanPath (x : String) : Prop :=
  ∃ rooted segs, NormSegs rooted segs ∧ x.data = renderPath rooted segs

theorem splitSlash_ne_nil (l : List Char) : splitSlash l ≠ [] := by
  cases l with
  | nil => simp [splitSlash]
  | cons c rest =>
    by_cases hc : c = '/'
    · simp [splitSlash, hc]
    · simp only [splitSlash, if_neg hc]
      cases splitSlash rest <;> simp [consHead]

theorem splitSlash_no_slash (l : List Char) : ∀ s ∈ splitSlash l, '/' ∉ s := by
  induction l with
  | nil => simp [splitSlash]
  | cons c rest ih =>
    by_cases hc : c = '/'
    · simp only [splitSlash, if_pos hc]
      intro s hs
      rcases List.mem_cons.mp hs with h | h
      · subst h; simp
      · exact ih s h
    · simp only [splitSlash, if_neg hc]
      cases hsp : splitSlash rest with
      | nil => exact absurd hsp (splitSlash_ne_nil rest)
      | cons t ts =>
        rw [hsp] at ih
        intro s hs
        rcases List.mem_cons.mp (by simpa [consHead] using hs) with h | h
        · subst h
          intro hmem
          rcases List.mem_cons.mp hmem with h2 | h2
          · exact hc h2.symm
          · exact ih t (by simp) h2
        · exact ih s (by simp [h])

theorem splitSlash_slash_cons (l : List Char) :
    splitSlash ('/' :: l) = [] :: splitSlash l := by
  simp [splitSlash]

theorem splitSlash_of_no_slash {s : List Char} (h : '/' ∉ s) : splitSlash s = [s] := by
  induction s with
  | nil => simp [splitSlash]
  | cons c rest ih =>
    simp only [List.mem_cons, not_or] at h
    have hc : ¬ c = '/' := fun hh => h.1 hh.symm
    rw [splitSlash, if_neg hc, ih h.2]
    rfl

theorem splitSlash_append_slash {s : List Char} (t : List Char) (h : '/' ∉ s) :
    splitSlash (s ++ '/' :: t) = s :: splitSlash t := by
  induction s with
  | nil => simpa using splitSlash_slash_cons t
  | cons c rest ih =>
    simp only [List.mem_cons, not_or] at h
    have hc : ¬ c = '/' := fun hh => h.1 hh.symm
    have ih2 := ih h.2
    rw [List.cons_append, splitSlash, if_neg hc, ih2]
    rfl

theorem joinSlash_cons_cons (s t : List Char) (rest : List (List Char)) :
    joinSlash (s :: t :: rest) = s ++ '/' :: joinSlash (t :: rest) := rfl

theorem splitSlash_joinSlash :
    ∀ parts : List (List Char), parts ≠ [] → (∀ s ∈ parts, '/' ∉ s) →
      splitSlash (joinSlash parts) = parts
  | [], h, _ => absurd rfl h
  | [s], _, hs => by
      simp only [joinSlash]
      exact splitSlash_of_no_slash (hs s (by simp))
  | s :: t :: rest, _, hs => by
      rw [joinSlash_cons_cons,
        splitSlash_append_slash (joinSlash (t :: rest)) (hs s (by simp)),
        splitSlash_joinSlash (t :: rest) (by simp) (fun u hu => hs u (by simp [hu]))]

theorem joinSlash_append_single (xs : List (List Char)) (y : List Char) (h : xs ≠ []) :
    joinSlash (xs ++ [y]) = joinSlash xs ++ '/' :: y := by
  induction xs with
  | nil => exact absurd rfl h
  | cons s rest ih =>
    cases rest with
    | nil => simp [joinSlash]
    | cons t r2 =>
      have h1 : (s :: t :: r2) ++ [y] = s :: t :: (r2 ++ [y]) := by simp
      rw [h1, joinSlash_cons_cons]
      have h3 := ih (by simp)
      rw [List.cons_append] at h3
      rw [h3, joinSlash_cons_cons]
      simp

theorem ddSeg_segOK : SegOK ddSeg := by
  refine ⟨by decide, by decide, by decide⟩

theorem cleanStep_revInv {rooted : Bool} {acc : List (List Char)} {s : List Char}
    (hacc : RevInv rooted acc) (hs : '/' ∉ s) :
    RevInv rooted (cleanStep rooted acc s) := by
  obtain ⟨hok, tl, k, hdecomp, htl, hroot⟩ := hacc
  by_cases h1 : s = [] ∨ s = dotSeg
  · rw [cleanStep, if_pos h1]
    exact ⟨hok, tl, k, hdecomp, htl, hroot⟩
  by_cases h2 : s = ddSeg
  · subst h2
    rw [cleanStep, if_neg h1, if_pos rfl]
    cases acc with
    | nil =>
      cases rooted with
      | true => exact ⟨by simp [ddPop], [], 0, by simp [ddPop]⟩
      | false =>
        refine ⟨?_, [], 1, by simp [ddPop], by simp, by simp⟩
        intro u hu
        simp only [ddPop, if_neg (by simp : ¬false = true)] at hu
        rcases List.mem_singleton.mp hu with h
        subst h; exact ddSeg_segOK
    | cons t rest =>
      by_cases h3 : t = ddSeg
      · subst h3
        have htl0 : tl = [] := by
          cases tl with
          | nil => rfl
          | cons a b =>
            rw [List.cons_append] at hdecomp
            injection hdecomp with h4 h5
            exact absurd h4.symm (htl a (by simp))
        subst htl0
        rw [List.nil_append] at hdecomp
        cases k with
        | zero => simp at hdecomp
        | succ k' =>
          rw [List.replicate_succ] at hdecomp
          injection hdecomp with h4 h5
          rw [ddPop, if_pos rfl]
          refine ⟨?_, [], k' + 2, ?_, by simp, fun hr => absurd (hroot hr) (Nat.succ_ne_zero k')⟩
          · intro u hu
            rcases List.mem_cons.mp hu with h | h
            · subst h; exact ddSeg_segOK
            · exact hok u h
          · rw [List.nil_append, List.replicate_succ, List.replicate_succ, h5]
      · rw [ddPop, if_neg h3]
        cases tl with
        | nil =>
          rw [List.nil_append] at hdecomp
          cases k with
          | zero => simp at hdecomp
          | succ k' =>
            rw [List.replicate_succ] at hdecomp
            injection hdecomp with h4 h5
            exact absurd h4 h3
        | cons a b =>
          rw [List.cons_append] at hdecomp
          injection hdecomp with h4 h5
          refine ⟨fun u hu => hok u (List.mem_cons_of_mem t hu), b, k, h5,
            fun u hu => htl u (List.mem_cons_of_mem a hu), hroot⟩
  · rw [cleanStep, if_neg h1, if_neg h2]
    push_neg at h1
    refine ⟨fun u hu => ?_, s :: tl, k, by rw [hdecomp]; rfl, fun u hu => ?_, hroot⟩
    · rcases List.mem_cons.mp hu with h | h
      · subst h; exact ⟨h1.1, h1.2, hs⟩
      · exact hok u h
    · rcases List.mem_cons.mp hu with h | h
      · subst h; exact h2
      · exact htl u h

theorem norm_of_revInv {rooted : Bool} {acc : List (List Char)}
    (h : RevInv rooted acc) : NormSegs rooted acc.reverse := by
  obtain ⟨hok, tl, k, hdecomp, htl, hroot⟩ := h
  refine ⟨fun s hs => hok s (by simpa using hs), k, tl.reverse, ?_, by simpa using htl, hroot⟩
  rw [hdecomp, List.reverse_append, List.reverse_replicate]

theorem cleanSegsAux_norm {rooted : Bool} :
    ∀ (parts acc : List (List Char)), RevInv rooted acc →
      (∀ s ∈ parts, '/' ∉ s) → NormSegs rooted (cleanSegsAux rooted acc parts)
  | [], acc, hacc, _ => norm_of_revInv hacc
  | s :: rest, acc, hacc, hparts => by
      rw [cleanSegsAux]
      exact cleanSegsAux_norm rest _ (cleanStep_revInv hacc (hparts s (by simp)))
        (fun u hu => hparts u (by simp [hu]))

theorem cleanSegs_norm (rooted : Bool) (parts : List (List Char))
    (hparts : ∀ s ∈ parts, '/' ∉ s) : NormSegs rooted (cleanSegs rooted parts) :=
  cleanSegsAux_norm parts [] ⟨by simp, [], 0, by simp⟩ hparts

theorem cleanSegsAux_all_normal {rooted : Bool} :
    ∀ (parts : List (List Char)), (∀ s ∈ parts, SegOK s ∧ s ≠ ddSeg) →
      ∀ acc, cleanSegsAux rooted acc parts = acc.reverse ++ parts
  | [], _, acc => by simp [cleanSegsAux]
  | s :: rest, h, acc => by
      obtain ⟨⟨hne, hdot, _⟩, hdd⟩ := h s (by simp)
      rw [cleanSegsAux, cleanStep, if_neg (by simp [hne, hdot]), if_neg hdd,
        cleanSegsAux_all_normal rest (fun u hu => h u (by simp [hu]))]
      simp

theorem cleanSegsAux_dds :
    ∀ (k m : Nat) (tl : List (List Char)),
      cleanSegsAux false (List.replicate m ddSeg) (List.replicate k ddSeg ++ tl) =
        cleanSegsAux false (List.replicate (m + k) ddSeg) tl
  | 0, m, tl => by simp
  | k + 1, m, tl => by
      rw [List.replicate_succ, List.cons_append, cleanSegsAux]
      have hstep : cleanStep false (List.replicate m ddSeg) ddSeg =
          List.replicate (m + 1) ddSeg := by
        cases m with
        | zero => decide
        | succ m' =>
          rw [cleanStep, if_neg (by decide), if_pos rfl, List.replicate_succ, ddPop,
            if_pos rfl, ← List.replicate_succ, ← List.replicate_succ]
      rw [hstep, cleanSegsAux_dds k (m + 1) tl]
      congr 2
      omega

theorem cleanSegs_of_norm {rooted : Bool} {segs : List (List Char)}
    (h : NormSegs rooted segs) : cleanSegs rooted segs = segs := by
  obtain ⟨hok, k, tl, hdecomp, htl, hroot⟩ := h
  have htlok : ∀ s ∈ tl, SegOK s ∧ s ≠ ddSeg := fun s hs =>
    ⟨hok s (by rw [hdecomp]; exact List.mem_append_right _ hs), htl s hs⟩
  rw [hdecomp]
  cases rooted with
  | true =>
    rw [hroot rfl, List.replicate_zero, List.nil_append, cleanSegs,
      cleanSegsAux_all_normal tl htlok []]
    simp
  | false =>
    rw [cleanSegs, show ([] : List (List Char)) = List.replicate 0 ddSeg from rfl,
      cleanSegsAux_dds k 0 tl, cleanSegsAux_all_normal tl htlok]
    simp [List.reverse_replicate]

theorem joinSlash_head {s : List Char} (rest : List (List Char)) (hs : s ≠ []) :
    (joinSlash (s :: rest)).head? = s.head? := by
  cases rest with
  | nil => simp [joinSlash]
  | cons t r =>
    rw [joinSlash_cons_cons]
    cases s with
    | nil => exact absurd rfl hs
    | cons c cs => simp

theorem joinSlash_ne_nil_of_norm {rooted : Bool} {s : List Char} {rest : List (List Char)}
    (h : NormSegs rooted (s :: rest)) : joinSlash (s :: rest) ≠ [] := by
  have hs : s ≠ [] := (h.1 s (by simp)).1
  intro hcontra
  have hh := joinSlash_head rest hs
  rw [hcontra] at hh
  cases s with
  | nil => exact hs rfl
  | cons c cs => simp at hh

theorem headIsSlash_of_head {l : List Char} {a : Char} (h : l.head? = some a)
    (ha : a ≠ '/') : headIsSlash l = false := by
  cases l with
  | nil => simp at h
  | cons c cs =>
    simp only [List.head?] at h
    injection h with h2
    subst h2
    simpa [headIsSlash] using ha

theorem headIsSlash_joinSlash_norm {rooted : Bool} {s : List Char} {rest : List (List Char)}
    (h : NormSegs rooted (s :: rest)) : headIsSlash (joinSlash (s :: rest)) = false := by
  obtain ⟨hne, _, hslash⟩ := h.1 s (by simp)
  cases s with
  | nil => exact absurd rfl hne
  | cons a as =>
    have ha : a ≠ '/' := fun hh => hslash (hh ▸ List.mem_cons_self a as)
    exact headIsSlash_of_head (by rw [joinSlash_head rest hne]; rfl) ha

theorem norm_slash_free {rooted : Bool} {segs : List (List Char)} (h : NormSegs rooted segs) :
    ∀ s ∈ segs, '/' ∉ s := fun s hs => (h.1 s hs).2.2

theorem pathCleanL_render {rooted : Bool} {segs : List (List Char)}
    (h : NormSegs rooted segs) : pathCleanL (renderPath rooted segs) = renderPath rooted segs := by
  cases rooted with
  | true =>
    cases segs with
    | nil =>
      have h1 : renderPath true [] = ['/'] := rfl
      rw [h1]
      decide
    | cons s rest =>
      have hrender : renderPath true (s :: rest) = '/' :: joinSlash (s :: rest) := rfl
      rw [hrender, pathCleanL, if_neg (by simp)]
      have hhs : headIsSlash ('/' :: joinSlash (s :: rest)) = true := by
        simp [headIsSlash]
      rw [hhs, splitSlash_slash_cons,
        splitSlash_joinSlash (s :: rest) (by simp) (norm_slash_free h)]
      have hc : cleanSegs true ([] :: s :: rest) = cleanSegs true (s :: rest) := by
        rw [cleanSegs, cleanSegs, cleanSegsAux, cleanStep, if_pos (Or.inl rfl)]
      rw [hc, cleanSegs_of_norm h]
      exact hrender
  | false =>
    cases segs with
    | nil =>
      have h1 : renderPath false [] = dotSeg := rfl
      rw [h1]
      decide
    | cons s rest =>
      have hj : joinSlash (s :: rest) ≠ [] := joinSlash_ne_nil_of_norm h
      have hrender : renderPath false (s :: rest) = joinSlash (s :: rest) := by
        rw [renderPath, if_neg (by simp), if_neg hj]
      rw [hrender, pathCleanL, if_neg hj, headIsSlash_joinSlash_norm h,
        splitSlash_joinSlash (s :: rest) (by simp) (norm_slash_free h),
        cleanSegs_of_norm h, renderPath, if_neg (by simp), if_neg hj]

theorem pathCleanL_normal_form (l : List Char) :
    ∃ rooted segs, NormSegs rooted segs ∧ pathCleanL l = renderPath rooted segs := by
  by_cases hl : l = []
  · refine ⟨false, [], ⟨by simp, 0, [], by simp⟩, ?_⟩
    rw [hl, pathCleanL, if_pos rfl]
    rfl
  · exact ⟨headIsSlash l, cleanSegs (headIsSlash l) (splitSlash l),
      cleanSegs_norm _ _ (splitSlash_no_slash l), by rw [pathCleanL, if_neg hl]⟩

theorem pathCleanL_idem (l : List Char) : pathCleanL (pathCleanL l) = pathCleanL l := by
  obtain ⟨rooted, segs, hnorm, heq⟩ := pathCleanL_normal_form l
  rw [heq, pathCleanL_render hnorm]

theorem pathClean_idem (p : String) : pathClean (pathClean p) = pathClean p := by
  show String.mk (pathCleanL (String.mk (pathCleanL p.data)).data) = pathClean p
  rw [show (String.mk (pathCleanL p.data)).data = pathCleanL p.data from rfl,
    pathCleanL_idem]
  rfl

theorem headIsSlash_pathCleanL {l : List Char} (h : headIsSlash l = true) :
    headIsSlash (pathCleanL l) = true := by
  have hl : l ≠ [] := by
    intro hcontra
    rw [hcontra] at h
    simp [headIsSlash] at h
  rw [pathCleanL, if_neg hl, h]
  rfl

theorem joinSlash_consHead (c : Char) (parts : List (List Char)) (h : parts ≠ []) :
    joinSlash (consHead c parts) = c :: joinSlash parts := by
  cases parts with
  | nil => exact absurd rfl h
  | cons s rest =>
    cases rest with
    | nil => rfl
    | cons t r => rfl

theorem joinSlash_splitSlash (l : List Char) : joinSlash (splitSlash l) = l := by
  induction l with
  | nil => rfl
  | cons c rest ih =>
    by_cases hc : c = '/'
    · subst hc
      rw [splitSlash, if_pos rfl]
      cases hsp : splitSlash rest with
      | nil => exact absurd hsp (splitSlash_ne_nil rest)
      | cons s ss =>
        rw [joinSlash_cons_cons]
        rw [hsp] at ih
        rw [ih]
        rfl
    · rw [splitSlash, if_neg hc, joinSlash_consHead c _ (splitSlash_ne_nil rest), ih]

theorem joinSlash_append (xs ys : List (List Char)) (hxs : xs ≠ []) (hys : ys ≠ []) :
    joinSlash (xs ++ ys) = joinSlash xs ++ '/' :: joinSlash ys := by
  induction xs with
  | nil => exact absurd rfl hxs
  | cons s rest ih =>
    cases rest with
    | nil =>
      cases ys with
      | nil => exact absurd rfl hys
      | cons y yr => simp [joinSlash_cons_cons, joinSlash]
    | cons t r =>
      have h1 : (s :: t :: r) ++ ys = s :: ((t :: r) ++ ys) := by simp
      rw [h1]
      have h2 : (t :: r) ++ ys = t :: (r ++ ys) := by simp
      rw [h2, joinSlash_cons_cons, ← h2, ih (by simp), joinSlash_cons_cons]
      simp

theorem headIsSlash_eq_true {l : List Char} (h : headIsSlash l = true) :
    ∃ t, l = '/' :: t := by
  cases l with
  | nil => simp [headIsSlash] at h
  | cons c cs =>
    have hc : c = '/' := of_decide_eq_true h
    exact ⟨cs, by rw [hc]⟩

theorem isAbs_data {o : String} (h : isAbsPath o = true) : ∃ t, o.data = '/' :: t :=
  headIsSlash_eq_true h

theorem isAbs_ne_empty {o : String} (h : isAbsPath o = true) : o ≠ "" := by
  intro hcontra
  rw [hcontra] at h
  exact absurd h (by decide)

theorem isAbs_ne_tilde {o : String} (h : isAbsPath o = true) : o ≠ "~" := by
  intro hcontra
  rw [hcontra] at h
  exact absurd h (by decide)

theorem isAbs_ne_root_data {o : String} (h : o ≠ "/") : o.data ≠ ['/'] := by
  intro hcontra
  apply h
  cases o with
  | mk data => exact congrArg String.mk hcontra

theorem hasTildeSlash_of_abs {o : String} (h : isAbsPath o = true) :
    hasTildeSlash o = false := by
  obtain ⟨data⟩ := o
  cases data with
  | nil => exact absurd h (by decide)
  | cons c cs =>
    have hc : c = '/' := of_decide_eq_true h
    subst hc
    cases cs with
    | nil => rfl
    | cons c₂ rest =>
      show (decide ('/' = '~') && decide (c₂ = '/')) = false
      rw [show decide ('/' = '~') = false from rfl, Bool.false_and]

theorem pathClean_abs {p : String} (h : isAbsPath p = true) :
    isAbsPath (pathClean p) = true := by
  show headIsSlash (pathCleanL p.data) = true
  exact headIsSlash_pathCleanL h

theorem pathJoin_abs {a : String} (b : String) (h : isAbsPath a = true) :
    isAbsPath (pathJoin a b) = true := by
  have ha : a ≠ "" := isAbs_ne_empty h
  by_cases hb : b = ""
  · rw [pathJoin, if_neg (by simp [ha]), if_neg ha, if_pos hb]
    exact pathClean_abs h
  · rw [pathJoin, if_neg (by simp [ha]), if_neg ha, if_neg hb]
    show headIsSlash (pathCleanL (a.data ++ '/' :: b.data)) = true
    apply headIsSlash_pathCleanL
    obtain ⟨t, ht⟩ := isAbs_data h
    rw [ht, List.cons_append]
    rfl

theorem resolve_of_abs_clean (wd : String) (home : Option String) {o : String}
    (habs : isAbsPath o = true) (hclean : pathClean o = o) :
    resolvePath wd home o = o := by
  rw [resolvePath.eq_def, if_neg (isAbs_ne_empty habs), if_neg (isAbs_ne_tilde habs),
    if_neg (by simp [hasTildeSlash_of_abs habs]), if_pos habs]
  exact hclean

/-- An absolute, `Clean`-stable path decomposes as `/` followed by joined
well-formed segments (with no `..` at all). -/
theorem abs_clean_decomp {a : String} (habs : isAbsPath a = true)
    (hclean : pathClean a = a) :
    ∃ segs, NormSegs true segs ∧ a.data = '/' :: joinSlash segs := by
  obtain ⟨rooted, segs, hnorm, heq⟩ := pathCleanL_normal_form a.data
  have hdata : a.data = renderPath rooted segs := by
    have h1 : (pathClean a).data = a.data := by rw [hclean]
    have h2 : (pathClean a).data = pathCleanL a.data := rfl
    rw [← h1, h2, heq]
  cases rooted with
  | true => exact ⟨segs, hnorm, hdata⟩
  | false =>
    exfalso
    cases segs with
    | nil =>
      rw [show renderPath false [] = dotSeg from rfl] at hdata
      rw [isAbsPath, hdata] at habs
      exact absurd habs (by decide)
    | cons s rest =>
      have hjoin : renderPath false (s :: rest) = joinSlash (s :: rest) := by
        rw [renderPath, if_neg (by simp), if_neg (joinSlash_ne_nil_of_norm hnorm)]
      rw [isAbsPath, hdata, hjoin, headIsSlash_joinSlash_norm hnorm] at habs
      exact absurd habs (by simp)

theorem normSegs_true_all_normal {segs : List (List Char)} (h : NormSegs true segs) :
    ∀ s ∈ segs, SegOK s ∧ s ≠ ddSeg := by
  obtain ⟨hok, k, tl, hdecomp, htl, hroot⟩ := h
  rw [hroot rfl, List.replicate_zero, List.nil_append] at hdecomp
  subst hdecomp
  exact fun s hs => ⟨hok s hs, htl s hs⟩

theorem string_data_append (a b : String) : (a ++ b).data = a.data ++ b.data := by
  obtain ⟨da⟩ := a
  obtain ⟨db⟩ := b
  rfl

/-- Joining a non-root absolute cleaned path with a path whose segments
are all well-formed and `..`-free is plain concatenation with a `/`. -/
theorem pathJoin_clean_abs {a x : String} (habs : isAbsPath a = true)
    (hclean : pathClean a = a) (hroot : a ≠ "/") (hx : x ≠ "")
    (hxnorm : ∀ s ∈ splitSlash x.data, SegOK s ∧ s ≠ ddSeg) :
    pathJoin a x = a ++ "/" ++ x := by
  have ha : a ≠ "" := isAbs_ne_empty habs
  obtain ⟨segs, hnorm, hdata⟩ := abs_clean_decomp habs hclean
  have hsegs_ne : segs ≠ [] := by
    intro hcontra
    rw [hcontra] at hdata
    exact isAbs_ne_root_data hroot (by rw [hdata]; rfl)
  have hxs_ne : splitSlash x.data ≠ [] := splitSlash_ne_nil x.data
  have hallok : ∀ s ∈ segs ++ splitSlash x.data, SegOK s ∧ s ≠ ddSeg := by
    intro s hs
    rcases List.mem_append.mp hs with h | h
    · exact normSegs_true_all_normal hnorm s h
    · exact hxnorm s h
  have hcat : a.data ++ '/' :: x.data = '/' :: joinSlash (segs ++ splitSlash x.data) := by
    rw [hdata, joinSlash_append segs (splitSlash x.data) hsegs_ne hxs_ne,
      joinSlash_splitSlash, List.cons_append]
  have hcleanres : pathCleanL (a.data ++ '/' :: x.data) = a.data ++ '/' :: x.data := by
    rw [hcat, pathCleanL, if_neg (by simp)]
    have hhs : headIsSlash ('/' :: joinSlash (segs ++ splitSlash x.data)) = true := by
      simp [headIsSlash]
    rw [hhs, splitSlash_slash_cons,
      splitSlash_joinSlash _ (by simp [hsegs_ne]) (fun s hs => (hallok s hs).1.2.2)]
    have hstep : cleanSegs true ([] :: (segs ++ splitSlash x.data)) =
        cleanSegs true (segs ++ splitSlash x.data) := by
      rw [cleanSegs, cleanSegs, cleanSegsAux, cleanStep, if_pos (Or.inl rfl)]
    rw [hstep, cleanSegs, cleanSegsAux_all_normal _ hallok []]
    rfl
  have hfinal : a.data ++ '/' :: x.data = (a ++ "/" ++ x).data := by
    rw [string_data_append, string_data_append,
      show ("/" : String).data = ['/'] from rfl]
    simp
  rw [pathJoin, if_neg (by simp [ha]), if_neg ha, if_neg hx, hcleanres, hfinal]

/-- Every output of the resolvers is absolute and `Clean`-stable, provided
the session invariants hold: the working directory and (when available)
the home directory are absolute cleaned paths. -/
theorem resolvePath_output {wd : String} {home : Option String} (p : String)
    (hwd : isAbsPath wd = true ∧ pathClean wd = wd)
    (hhome : ∀ h, home = some h → isAbsPath h = true ∧ pathClean h = h) :
    isAbsPath (resolvePath wd home p) = true ∧
      pathClean (resolvePath wd home p) = resolvePath wd home p := by
  rw [resolvePath.eq_def]
  by_cases h1 : p = ""
  · rw [if_pos h1]; exact hwd
  rw [if_neg h1]
  by_cases h2 : p = "~"
  · rw [if_pos h2]
    cases hh : home with
    | none => exact hwd
    | some h => exact hhome h hh
  rw [if_neg h2]
  by_cases h3 : hasTildeSlash p = true
  · rw [if_pos h3]
    cases hh : home with
    | none =>
      by_cases h4 : isAbsPath p = true
      · rw [if_pos h4]; exact ⟨pathClean_abs h4, pathClean_idem p⟩
      · rw [if_neg h4]
        exact ⟨pathClean_abs (pathJoin_abs p hwd.1), pathClean_idem _⟩
    | some h =>
      exact ⟨pathClean_abs (pathJoin_abs (dropTwo p) (hhome h hh).1), pathClean_idem _⟩
  · rw [if_neg h3]
    by_cases h4 : isAbsPath p = true
    · rw [if_pos h4]; exact ⟨pathClean_abs h4, pathClean_idem p⟩
    · rw [if_neg h4]
      exact ⟨pathClean_abs (pathJoin_abs p hwd.1), pathClean_idem _⟩

/-- The two resolvers are literally the same algorithm. -/
theorem resolveLocalPath_eq_resolvePath : resolveLocalPath = resolvePath := rfl

theorem executeTasks_foldl (tr : transferTask → Option String) :
    ∀ (tasks : List transferTask) (c : Nat) (es : List String),
      tasks.foldl (executeStep tr) (c, es) =
      (c + (tasks.filter (fun t => (tr t).isNone)).length,
        es ++ tasks.filterMap (fun t => Option.map (wrapTaskErr t) (tr t))) := by
  intro tasks
  induction tasks with
  | nil => simp
  | cons t rest ih =>
    intro c es
    cases htr : tr t with
    | none =>
      have hstep : executeStep tr (c, es) t = (c + 1, es) := by simp [executeStep, htr]
      rw [List.foldl_cons, hstep, ih (c + 1) es]
      apply Prod.ext
      · simp [List.filter_cons, htr]
        omega
      · simp [List.filterMap_cons, htr]
    | some e =>
      have hstep : executeStep tr (c, es) t = (c, es ++ [wrapTaskErr t e]) := by
        simp [executeStep, htr]
      rw [List.foldl_cons, hstep, ih c (es ++ [wrapTaskErr t e])]
      apply Prod.ext
      · simp [List.filter_cons, htr]
      · simp [List.filterMap_cons, htr]

theorem filter_isNone_add_isSome (tr : transferTask → Option String)
    (tasks : List transferTask) :
    (tasks.filter (fun t => (tr t).isNone)).length +
      (tasks.filter (fun t => (tr t).isSome)).length = tasks.length := by
  induction tasks with
  | nil => rfl
  | cons t rest ih => cases htr : tr t <;> simp [List.filter_cons, htr] <;> omega

theorem failList_length (tr : transferTask → Option String) (tasks : List transferTask) :
    (tasks.filterMap (fun t => Option.map (wrapTaskErr t) (tr t))).length =
      (tasks.filter (fun t => (tr t).isSome)).length := by
  induction tasks with
  | nil => rfl
  | cons t rest ih =>
    cases htr : tr t <;> simp [List.filter_cons, List.filterMap_cons, htr, ih]

/-- C1: for every task list of `n` tasks of which `m` fail, `executeTasks`
returns `successCount = n − m`; the returned error is `nil` exactly when
no task fails, and otherwise is the join of the per-task-wrapped failures,
mentioning each of the `m` failures. -/
theorem executeTasks_error_completeness (tr : transferTask → Option String)
    (tasks : List transferTask) :
    (executeTasks tr tasks).1 =
        tasks.length - (tasks.filter (fun t => (tr t).isSome)).length ∧
      ((tasks.filter (fun t => (tr t).isSome)).length = 0 →
        (executeTasks tr tasks).2 = none) ∧
      ((tasks.filter (fun t => (tr t).isSome)).length ≠ 0 →
        (executeTasks tr tasks).2 =
          some (tasks.filterMap (fun t => Option.map (wrapTaskErr t) (tr t)))) ∧
      (∀ t ∈ tasks, ∀ e, tr t = some e →
        wrapTaskErr t e ∈ tasks.filterMap (fun t => Option.map (wrapTaskErr t) (tr t))) := by
  have hmem : ∀ t ∈ tasks, ∀ e, tr t = some e →
      wrapTaskErr t e ∈ tasks.filterMap (fun t => Option.map (wrapTaskErr t) (tr t)) := by
    intro t ht e htr
    exact List.mem_filterMap.mpr ⟨t, ht, by rw [htr]; rfl⟩
  cases tasks with
  | nil => exact ⟨rfl, fun _ => rfl, fun h => absurd rfl h, by simp⟩
  | cons t0 rest =>
    have hfold := executeTasks_foldl tr (t0 :: rest) 0 []
    have hexec : executeTasks tr (t0 :: rest) =
        (let r := (t0 :: rest).foldl (executeStep tr) (0, []);
          if r.2 = [] then (r.1, none) else (r.1, some r.2)) := rfl
    rw [hexec]
    simp only [hfold, List.nil_append, Nat.zero_add]
    have hadd := filter_isNone_add_isSome tr (t0 :: rest)
    have hlen := failList_length tr (t0 :: rest)
    by_cases hempty :
        (t0 :: rest).filterMap (fun t => Option.map (wrapTaskErr t) (tr t)) = []
    · rw [if_pos hempty]
      have hm0 : ((t0 :: rest).filter (fun t => (tr t).isSome)).length = 0 := by
        rw [← hlen, hempty]
        rfl
      exact ⟨by omega, fun _ => rfl, fun h => absurd hm0 h, hmem⟩
    · rw [if_neg hempty]
      have hm : ((t0 :: rest).filter (fun t => (tr t).isSome)).length ≠ 0 := by
        intro h0
        exact hempty (List.length_eq_zero.mp (hlen.trans h0))
      exact ⟨by omega, fun h => absurd h hm, fun _ => rfl, hmem⟩

theorem executeTasks_error_completeness_witness :
    (executeTasks (fun t => if t.isUpload then none else some ("denied"))
        [⟨"a", "/r/a", true, 1⟩, ⟨"b", "/r/b", false, 2⟩]).1 = 1 ∧
      (executeTasks (fun t => if t.isUpload then none else some ("denied"))
        [⟨"a", "/r/a", true, 1⟩, ⟨"b", "/r/b", false, 2⟩]).2 =
        some ["download /r/b: denied"] := by
  have h := executeTasks_error_completeness
    (fun t => if t.isUpload then none else some ("denied"))
    [⟨"a", "/r/a", true, 1⟩, ⟨"b", "/r/b", false, 2⟩]
  exact ⟨by rw [h.1]; decide, by rw [h.2.2.1 (by decide)]; decide⟩

/-- C2 counterexample: with `opts == nil`, the batch operations do not all
default `recursive` to `true` — the substituted literals leave `Recursive`
at Go's zero value `false` (the other three defaults do hold). -/
theorem nil_options_recursive_counterexample :
    ¬ (uploadNilOpts.Recursive = true ∧ uploadNilOpts.ShowProgress = true ∧
        uploadNilOpts.Concurrency = 4 ∧ uploadNilOpts.MaxDepth = -1 ∧
        downloadNilOpts.Recursive = true ∧ downloadNilOpts.ShowProgress = true ∧
        downloadNilOpts.Concurrency = 4 ∧ downloadNilOpts.MaxDepth = -1) := by
  decide

/-- C2 (amended): with `opts == nil`, `UploadGlob`/`UploadDir` and
`DownloadGlob`/`DownloadDir` default the options to
`recursive=false, showProgress=true, concurrency=4, maxDepth=−1`
(recursive stays at Go's zero value because the substituted literal omits
it), while the unused `DefaultTransferOptions` does carry
`recursive=true` with the same other fields. -/
theorem nil_options_defaults :
    uploadNilOpts =
        { Recursive := false, ShowProgress := true, Concurrency := 4, MaxDepth := -1 } ∧
      downloadNilOpts =
        { Recursive := false, ShowProgress := true, Concurrency := 4, MaxDepth := -1 } ∧
      DefaultTransferOptions =
        { Recursive := true, ShowProgress := true, Concurrency := 4, MaxDepth := -1 } := by
  decide

theorem collectUploadTasks_unbounded (m : Int) (hm : m < 0) :
    ∀ (cd : Int) (ld rd : String) (entries : List FSTree),
      collectUploadTasks m cd ld rd entries = specTasks mkUploadTask none ld rd entries
  | cd, ld, rd, [] => by simp [collectUploadTasks, specTasks]
  | cd, ld, rd, FSTree.file name size :: rest => by
      simp only [collectUploadTasks, specTasks, mkUploadTask]
      rw [collectUploadTasks_unbounded m hm cd ld rd rest]
  | cd, ld, rd, FSTree.dir name sub :: rest => by
      have hcond : ¬ (m ≥ 0 ∧ cd ≥ m) := by omega
      simp only [collectUploadTasks, specTasks, if_neg hcond]
      rw [collectUploadTasks_unbounded m hm (cd + 1) (pathJoin ld name) (pathJoin rd name) sub,
        collectUploadTasks_unbounded m hm cd ld rd rest]

theorem collectDownloadTasks_unbounded (m : Int) (hm : m < 0) :
    ∀ (cd : Int) (rd ld : String) (entries : List FSTree),
      collectDownloadTasks m cd rd ld entries = specTasks mkDownloadTask none rd ld entries
  | cd, rd, ld, [] => by simp [collectDownloadTasks, specTasks]
  | cd, rd, ld, FSTree.file name size :: rest => by
      simp only [collectDownloadTasks, specTasks, mkDownloadTask]
      rw [collectDownloadTasks_unbounded m hm cd rd ld rest]
  | cd, rd, ld, FSTree.dir name sub :: rest => by
      have hcond : ¬ (m ≥ 0 ∧ cd ≥ m) := by omega
      simp only [collectDownloadTasks, specTasks, if_neg hcond]
      rw [collectDownloadTasks_unbounded m hm (cd + 1) (pathJoin rd name) (pathJoin ld name) sub,
        collectDownloadTasks_unbounded m hm cd rd ld rest]

theorem collectUploadTasks_bounded (k : Nat) :
    ∀ (c : Nat), c ≤ k → ∀ (ld rd : String) (entries : List FSTree),
      collectUploadTasks (k : Int) (c : Int) ld rd entries =
        specTasks mkUploadTask (some (k - c)) ld rd entries
  | c, hc, ld, rd, [] => by simp [collectUploadTasks, specTasks]
  | c, hc, ld, rd, FSTree.file name size :: rest => by
      simp only [collectUploadTasks, specTasks, mkUploadTask]
      rw [collectUploadTasks_bounded k c hc ld rd rest]
  | c, hc, ld, rd, FSTree.dir name sub :: rest => by
      by_cases hck : k ≤ c
      · have hcond : (k : Int) ≥ 0 ∧ (c : Int) ≥ (k : Int) := by
          constructor
          · positivity
          · exact_mod_cast hck
        have h0 : k - c = 0 := by omega
        simp only [collectUploadTasks, specTasks, if_pos hcond, h0]
        rw [collectUploadTasks_bounded k c hc ld rd rest, h0]
      · have hcond : ¬ ((k : Int) ≥ 0 ∧ (c : Int) ≥ (k : Int)) := by
          intro hcontra
          have : k ≤ c := by exact_mod_cast hcontra.2
          omega
        have hsucc : k - c = (k - (c + 1)) + 1 := by omega
        have hcast : ((c : Int) + 1) = ((c + 1 : Nat) : Int) := by push_cast; ring
        simp only [collectUploadTasks, specTasks, if_neg hcond, hsucc, hcast]
        rw [collectUploadTasks_bounded k (c + 1) (by omega) (pathJoin ld name)
            (pathJoin rd name) sub,
          collectUploadTasks_bounded k c hc ld rd rest, hsucc]

theorem collectDownloadTasks_bounded (k : Nat) :
    ∀ (c : Nat), c ≤ k → ∀ (rd ld : String) (entries : List FSTree),
      collectDownloadTasks (k : Int) (c : Int) rd ld entries =
        specTasks mkDownloadTask (some (k - c)) rd ld entries
  | c, hc, rd, ld, [] => by simp [collectDownloadTasks, specTasks]
  | c, hc, rd, ld, FSTree.file name size :: rest => by
      simp only [collectDownloadTasks, specTasks, mkDownloadTask]
      rw [collectDownloadTasks_bounded k c hc rd ld rest]
  | c, hc, rd, ld, FSTree.dir name sub :: rest => by
      by_cases hck : k ≤ c
      · have hcond : (k : Int) ≥ 0 ∧ (c : Int) ≥ (k : Int) := by
          constructor
          · positivity
          · exact_mod_cast hck
        have h0 : k - c = 0 := by omega
        simp only [collectDownloadTasks, specTasks, if_pos hcond, h0]
        rw [collectDownloadTasks_bounded k c hc rd ld rest, h0]
      · have hcond : ¬ ((k : Int) ≥ 0 ∧ (c : Int) ≥ (k : Int)) := by
          intro hcontra
          have : k ≤ c := by exact_mod_cast hcontra.2
          omega
        have hsucc : k - c = (k - (c + 1)) + 1 := by omega
        have hcast : ((c : Int) + 1) = ((c + 1 : Nat) : Int) := by push_cast; ring
        simp only [collectDownloadTasks, specTasks, if_neg hcond, hsucc, hcast]
        rw [collectDownloadTasks_bounded k (c + 1) (by omega) (pathJoin rd name)
            (pathJoin ld name) sub,
          collectDownloadTasks_bounded k c hc rd ld rest, hsucc]

/-- C3: both task collectors obey the depth contract — with
`maxDepth = −1` they collect exactly the files of the unbounded walk, and
with `maxDepth = k ≥ 0` (`currentDepth` starting at 0) exactly the files
of the walk that descends through at most `k` levels of subdirectory, so
no emitted task's source path descends further. -/
theorem collector_depth_contract (ld rd : String) (entries : List FSTree) :
    (collectUploadTasks (-1) 0 ld rd entries = specTasks mkUploadTask none ld rd entries) ∧
      (∀ k : Nat, collectUploadTasks (k : Int) 0 ld rd entries =
        specTasks mkUploadTask (some k) ld rd entries) ∧
      (collectDownloadTasks (-1) 0 rd ld entries = specTasks mkDownloadTask none rd ld entries) ∧
      (∀ k : Nat, collectDownloadTasks (k : Int) 0 rd ld entries =
        specTasks mkDownloadTask (some k) rd ld entries) := by
  refine ⟨collectUploadTasks_unbounded (-1) (by omega) 0 ld rd entries, fun k => ?_,
    collectDownloadTasks_unbounded (-1) (by omega) 0 rd ld entries, fun k => ?_⟩
  · have h := collectUploadTasks_bounded k 0 (Nat.zero_le k) ld rd entries
    simpa using h
  · have h := collectDownloadTasks_bounded k 0 (Nat.zero_le k) rd ld entries
    simpa using h

theorem collectUploadTasks_no_files (m : Int) :
    ∀ (cd : Int) (ld rd : String) (entries : List FSTree), hasFileList entries = false →
      collectUploadTasks m cd ld rd entries = []
  | cd, ld, rd, [], _ => by simp [collectUploadTasks]
  | cd, ld, rd, FSTree.file name size :: rest, h => by simp [hasFileList] at h
  | cd, ld, rd, FSTree.dir name sub :: rest, h => by
      rw [hasFileList, Bool.or_eq_false_iff] at h
      simp only [collectUploadTasks]
      rw [collectUploadTasks_no_files m (cd + 1) (pathJoin ld name) (pathJoin rd name) sub h.1,
        collectUploadTasks_no_files m cd ld rd rest h.2]
      simp

theorem collectDownloadTasks_no_files (m : Int) :
    ∀ (cd : Int) (rd ld : String) (entries : List FSTree), hasFileList entries = false →
      collectDownloadTasks m cd rd ld entries = []
  | cd, rd, ld, [], _ => by simp [collectDownloadTasks]
  | cd, rd, ld, FSTree.file name size :: rest, h => by simp [hasFileList] at h
  | cd, rd, ld, FSTree.dir name sub :: rest, h => by
      rw [hasFileList, Bool.or_eq_false_iff] at h
      simp only [collectDownloadTasks]
      rw [collectDownloadTasks_no_files m (cd + 1) (pathJoin rd name) (pathJoin ld name) sub h.1,
        collectDownloadTasks_no_files m cd rd ld rest h.2]
      simp

/-- C10: the two directory batch operations disagree on sources with no
files — `DownloadDir` on an existing remote directory containing no files
returns count 0 and no error, while `UploadDir` on an existing local
directory containing no files returns count 0 together with the error
`no files found in directory`. -/
theorem emptyDir_disagreement (tr : transferTask → Option String)
    (ensure : List String → Option String) (entries : List FSTree)
    (ld rd : String) (uopts : UploadOptions) (dopts : DownloadOptions)
    (h : hasFileList entries = false) :
    UploadDirE tr ensure entries ld rd uopts = (0, some ["no files found in directory"]) ∧
      DownloadDirE tr entries rd ld dopts = (0, none) := by
  constructor
  · rw [UploadDirE]
    rw [collectUploadTasks_no_files uopts.MaxDepth 0 ld rd entries h]
    rfl
  · rw [DownloadDirE]
    rw [collectDownloadTasks_no_files dopts.MaxDepth 0 rd ld entries h]
    rfl

theorem emptyDir_disagreement_witness :
    UploadDirE (fun _ => none) (fun _ => none) [FSTree.dir ("sub") []] ("/l") ("/r")
        uploadNilOpts = (0, some ["no files found in directory"]) ∧
      DownloadDirE (fun _ => none) [FSTree.dir ("sub") []] ("/r") ("/l")
        downloadNilOpts = (0, none) :=
  emptyDir_disagreement (fun _ => none) (fun _ => none) [FSTree.dir ("sub") []]
    ("/l") ("/r") uploadNilOpts downloadNilOpts (by simp [hasFileList])

/-- C8: `List(dir)` answers from the cache, with no server call and the
cache unchanged, exactly when the entry under the resolved path is
fresher than the 30-second timeout; otherwise it issues `ReadDir`, and a
`ReadDir` failure is returned verbatim with the cache mapping left
unchanged. -/
theorem listDir_cache_semantics (readDir : String → Except String (List String)) (now : Nat)
    (wd : String) (home : Option String) (cache : DirCache) (dir : String) :
    (∀ cachedAt files,
        List.lookup (resolvePath wd home dir) cache = some (cachedAt, files) →
        now - cachedAt < DirCacheTimeout →
        listDir readDir now wd home cache dir = (Except.ok files, cache, false)) ∧
      ((¬ ∃ cachedAt files,
          List.lookup (resolvePath wd home dir) cache = some (cachedAt, files) ∧
          now - cachedAt < DirCacheTimeout) →
        (listDir readDir now wd home cache dir).2.2 = true ∧
        (∀ e, readDir (resolvePath wd home dir) = Except.error e →
          listDir readDir now wd home cache dir = (Except.error e, cache, true))) := by
  refine ⟨?_, ?_⟩
  · intro cachedAt files hlook hfresh
    simp only [listDir, hlook, if_pos hfresh]
  · intro hmiss
    have hred : listDir readDir now wd home cache dir =
        (match readDir (resolvePath wd home dir) with
          | Except.error e => (Except.error e, cache, true)
          | Except.ok files =>
            (Except.ok files,
              (resolvePath wd home dir, (now, files)) ::
                List.eraseP (fun kv => kv.1 == resolvePath wd home dir) cache,
              true)) := by
      cases hlook : List.lookup (resolvePath wd home dir) cache with
      | none => simp only [listDir, hlook]
      | some v =>
        obtain ⟨cA, fs⟩ := v
        have hstale : ¬ (now - cA < DirCacheTimeout) := fun hf => hmiss ⟨cA, fs, hlook, hf⟩
        simp only [listDir, hlook, if_neg hstale]
    refine ⟨?_, ?_⟩
    · rw [hred]
      cases hrd : readDir (resolvePath wd home dir) <;> simp [hrd]
    · intro e he
      rw [hred, he]

theorem listDir_cache_semantics_witness :
    listDir (fun _ => Except.error ("offline")) 10 ("/a/b") none
        [(("/a/b/c"), (5, [("f.txt")]))] ("c") =
      (Except.ok [("f.txt")], [(("/a/b/c"), (5, [("f.txt")]))], false) :=
  (listDir_cache_semantics (fun _ => Except.error ("offline")) 10 ("/a/b") none
    [(("/a/b/c"), (5, [("f.txt")]))] ("c")).1 5 [("f.txt")] (by decide) (by decide)

/-- C9 counterexample: with a malformed pattern (modelled by a matcher
that answers `ErrBadPattern` on every name), `globRemote` walks a
non-empty candidate set, swallows every match error and returns
`([], nil)` — no pattern syntax error reaches the caller, who instead
receives the generic `no files match pattern` failure from
`DownloadGlob`. -/
theorem glob_pattern_error_counterexample :
    globRemote (fun _ => some [(("a.txt"), false)]) (fun _ _ => Except.error ()) 3 ("/w/[a") =
        ([], none) ∧
      globWalkTop (fun _ => some [(("a.txt"), false)]) false 3 ("/w") = ["/w/a.txt"] ∧
      downloadGlobMatchPhase (fun _ => some [(("a.txt"), false)]) (fun _ _ => Except.error ())
        3 ("/w") ("[a") = Except.error ("no files match pattern: [a") :=
  ⟨rfl, rfl, rfl⟩

/-- C9 (amended): `globRemote` never returns an error at all — errors
from unreadable subdirectories during the walk are swallowed (the walk
skips them and the operation proceeds with the readable part), and
pattern syntax errors from the matcher are swallowed as well (each match
error just skips that candidate), so a malformed pattern surfaces to
`DownloadGlob`'s caller only as the generic `no files match pattern`
error. -/
theorem glob_error_swallowing :
    (∀ (rd : String → Option (List (String × Bool)))
        (dsMatch : String → String → Except Unit Bool) (fuel : Nat) (pattern : String),
        (globRemote rd dsMatch fuel pattern).2 = none) ∧
      globRemote
          (fun d => if d = "/w" then some [(("ok.txt"), false), (("bad"), true)] else none)
          (fun _ _ => Except.ok true) 3 ("/w/**") = (["/w/ok.txt", "/w/bad"], none) ∧
      downloadGlobMatchPhase (fun _ => some [(("a.txt"), false)]) (fun _ _ => Except.error ())
        3 ("/w") ("[a") = Except.error ("no files match pattern: [a") :=
  ⟨fun _ _ _ _ => rfl, rfl, rfl⟩

theorem pathClean_pathJoin {a b : String} (h : ¬ (a = "" ∧ b = "")) :
    pathClean (pathJoin a b) = pathJoin a b := by
  rw [pathJoin, if_neg h]
  by_cases ha : a = ""
  · rw [if_pos ha]
    exact pathClean_idem b
  · rw [if_neg ha]
    by_cases hb : b = ""
    · rw [if_pos hb]
      exact pathClean_idem a
    · rw [if_neg hb]
      show String.mk (pathCleanL (String.mk (pathCleanL (a.data ++ '/' :: b.data))).data) = _
      rw [show (String.mk (pathCleanL (a.data ++ '/' :: b.data))).data =
          pathCleanL (a.data ++ '/' :: b.data) from rfl,
        pathCleanL_idem]

/-- C6: with working directory `/a/b` and an absolute, cleaned, non-root
home directory, both resolvers satisfy the composition rules
`resolve("c/d") = "/a/b/c/d"`, `resolve("/x") = "/x"`,
`resolve("~") = home`, `resolve("~/e") = home ++ "/e"` and
`resolve("") = "/a/b"`; for the remote namespace `home` is the SFTP
session's reported working directory, for the local one the OS home. -/
theorem resolver_composition (hr hl : String)
    (hrabs : isAbsPath hr = true) (hrclean : pathClean hr = hr) (hrroot : hr ≠ "/")
    (hlabs : isAbsPath hl = true) (hlclean : pathClean hl = hl) (hlroot : hl ≠ "/") :
    resolvePath ("/a/b") (some hr) ("c/d") = "/a/b/c/d" ∧
      resolvePath ("/a/b") (some hr) ("/x") = "/x" ∧
      resolvePath ("/a/b") (some hr) ("~") = hr ∧
      resolvePath ("/a/b") (some hr) ("~/e") = hr ++ "/e" ∧
      resolvePath ("/a/b") (some hr) ("") = "/a/b" ∧
      resolveLocalPath ("/a/b") (some hl) ("c/d") = "/a/b/c/d" ∧
      resolveLocalPath ("/a/b") (some hl) ("/x") = "/x" ∧
      resolveLocalPath ("/a/b") (some hl) ("~") = hl ∧
      resolveLocalPath ("/a/b") (some hl) ("~/e") = hl ++ "/e" ∧
      resolveLocalPath ("/a/b") (some hl) ("") = "/a/b" := by
  have key : ∀ h : String, isAbsPath h = true → pathClean h = h → h ≠ "/" →
      resolvePath ("/a/b") (some h) ("~/e") = h ++ "/e" := by
    intro h habs hclean hroot
    have h1 : resolvePath ("/a/b") (some h) ("~/e") =
        pathClean (pathJoin h (dropTwo ("~/e"))) := rfl
    have h2 : dropTwo ("~/e") = "e" := rfl
    rw [h1, h2, pathClean_pathJoin (fun hc => absurd hc.2 (by decide)),
      pathJoin_clean_abs habs hclean hroot (by decide) (by decide)]
    obtain ⟨d⟩ := h
    show String.mk ((d ++ ['/']) ++ ['e']) = String.mk (d ++ ['/', 'e'])
    rw [List.append_assoc]
    rfl
  refine ⟨rfl, rfl, rfl, key hr hrabs hrclean hrroot, rfl, rfl, rfl, rfl, ?_, rfl⟩
  rw [resolveLocalPath_eq_resolvePath]
  exact key hl hlabs hlclean hlroot

theorem resolver_composition_witness :
    resolvePath ("/a/b") (some ("/home/u")) ("c/d") = "/a/b/c/d" ∧
      resolvePath ("/a/b") (some ("/home/u")) ("/x") = "/x" ∧
      resolvePath ("/a/b") (some ("/home/u")) ("~") = "/home/u" ∧
      resolvePath ("/a/b") (some ("/home/u")) ("~/e") = "/home/u" ++ "/e" ∧
      resolvePath ("/a/b") (some ("/home/u")) ("") = "/a/b" ∧
      resolveLocalPath ("/a/b") (some ("/home/u")) ("c/d") = "/a/b/c/d" ∧
      resolveLocalPath ("/a/b") (some ("/home/u")) ("/x") = "/x" ∧
      resolveLocalPath ("/a/b") (some ("/home/u")) ("~") = "/home/u" ∧
      resolveLocalPath ("/a/b") (some ("/home/u")) ("~/e") = "/home/u" ++ "/e" ∧
      resolveLocalPath ("/a/b") (some ("/home/u")) ("") = "/a/b" :=
  resolver_composition ("/home/u") ("/home/u") (by decide) (by decide) (by decide)
    (by decide) (by decide) (by decide)

/-- C7: path resolution is idempotent, for both resolvers, whenever the
session invariants hold (the working directory is absolute and cleaned,
and the home directory, when the lookup succeeds, likewise):
`resolve(resolve(p)) = resolve(p)` for every input string `p`. -/
theorem resolve_idempotent (wd : String) (home : Option String) (p : String)
    (hwdabs : isAbsPath wd = true) (hwdclean : pathClean wd = wd)
    (hhome : ∀ h, home = some h → isAbsPath h = true ∧ pathClean h = h) :
    resolvePath wd home (resolvePath wd home p) = resolvePath wd home p ∧
      resolveLocalPath wd home (resolveLocalPath wd home p) = resolveLocalPath wd home p := by
  have hout := resolvePath_output p ⟨hwdabs, hwdclean⟩ hhome
  have h1 := resolve_of_abs_clean wd home hout.1 hout.2
  refine ⟨h1, ?_⟩
  rw [resolveLocalPath_eq_resolvePath]
  exact h1

theorem resolve_idempotent_witness :
    resolvePath ("/a/b") (some ("/home/u"))
        (resolvePath ("/a/b") (some ("/home/u")) ("../x/./y")) =
      resolvePath ("/a/b") (some ("/home/u")) ("../x/./y") :=
  (resolve_idempotent ("/a/b") (some ("/home/u")) ("../x/./y") (by decide) (by decide)
    (fun h hh => by
      injection hh with hh2
      subst hh2
      exact ⟨by decide, by decide⟩)).1

theorem mkdirStep_none {M : FS → String → Option String × FS} {σ1 : FS} {d : String}
    (hmk : (M σ1 d).1.isSome = true → statFS (M σ1 d).2 d = some true) :
    (mkdirStep M σ1 d).1 = none := by
  cases hM : M σ1 d with
  | mk me σ2 =>
    cases me with
    | none => simp [mkdirStep, hM]
    | some e =>
      have hs : statFS σ2 d = some true := by
        have h2 := hmk (by rw [hM]; rfl)
        rw [hM] at h2
        exact h2
      simp [mkdirStep, hM, hs]

theorem mkdirStep_post {M : FS → String → Option String × FS} {σ1 : FS} {d : String}
    (hM : ∀ σ' p, (M σ' p).1 = none → statFS (M σ' p).2 p = some true)
    (h : (mkdirStep M σ1 d).1 = none) :
    statFS (mkdirStep M σ1 d).2 d = some true := by
  cases hMc : M σ1 d with
  | mk me σ2 =>
    cases me with
    | none =>
      have h2 := hM σ1 d (by rw [hMc])
      rw [hMc] at h2
      simpa [mkdirStep, hMc] using h2
    | some e =>
      by_cases hs : statFS σ2 d = some true
      · simp [mkdirStep, hMc, hs]
      · rw [mkdirStep] at h
        rw [hMc] at h
        simp [hs] at h

/-- C5: `ensureRemoteDir` against an abstract server (`M` is the server's
`Mkdir`, an arbitrary state transformer; `Stat` reads the modelled remote
filesystem).  First part: if the recursive ensure of the parent succeeds
and every `Mkdir` failure on the resolved path is immediately followed by
a `Stat` reporting a directory (the raced-creation scenario), the call
returns success.  Second part: whenever a successful `Mkdir` really
produces the directory, every error-free return of `ensureRemoteDir`
leaves the resolved path existing as a directory. -/
theorem ensureRemoteDir_correct (M : FS → String → Option String × FS) (wd : String)
    (home : Option String) :
    (∀ (fuel : Nat) (σ : FS) (dir0 : String),
        (¬ (pathDir (resolvePath wd home dir0) = "/" ∨
            pathDir (resolvePath wd home dir0) = ".") →
          (ensureRemoteDir M wd home fuel σ (pathDir (resolvePath wd home dir0))).1 = none) →
        (∀ σ', (M σ' (resolvePath wd home dir0)).1.isSome = true →
          statFS (M σ' (resolvePath wd home dir0)).2 (resolvePath wd home dir0) = some true) →
        (ensureRemoteDir M wd home (fuel + 1) σ dir0).1 = none) ∧
      ((∀ σ' p, (M σ' p).1 = none → statFS (M σ' p).2 p = some true) →
        ∀ (fuel : Nat) (σ : FS) (dir0 : String),
          (ensureRemoteDir M wd home fuel σ dir0).1 = none →
          statFS (ensureRemoteDir M wd home fuel σ dir0).2 (resolvePath wd home dir0) =
            some true) := by
  constructor
  · intro fuel σ dir0 hpar hmk
    simp only [ensureRemoteDir]
    by_cases h1 : statFS σ (resolvePath wd home dir0) = some true
    · rw [if_pos h1]
    · rw [if_neg h1, if_neg h1]
      by_cases hp : pathDir (resolvePath wd home dir0) = "/" ∨
          pathDir (resolvePath wd home dir0) = "."
      · rw [if_pos hp]
        show (mkdirStep M σ (resolvePath wd home dir0)).1 = none
        exact mkdirStep_none (hmk σ)
      · rw [if_neg hp]
        cases hpr : ensureRemoteDir M wd home fuel σ (pathDir (resolvePath wd home dir0)) with
        | mk ep σ1 =>
          have hep : ep = none := by
            have h2 := hpar hp
            rw [hpr] at h2
            exact h2
          subst hep
          show (mkdirStep M σ1 (resolvePath wd home dir0)).1 = none
          exact mkdirStep_none (hmk σ1)
  · intro hM fuel σ dir0 hnone
    cases fuel with
    | zero => exact absurd hnone (by simp [ensureRemoteDir])
    | succ f =>
      simp only [ensureRemoteDir] at hnone ⊢
      by_cases h1 : statFS σ (resolvePath wd home dir0) = some true
      · rw [if_pos h1]
        exact h1
      · rw [if_neg h1, if_neg h1] at hnone ⊢
        by_cases hp : pathDir (resolvePath wd home dir0) = "/" ∨
            pathDir (resolvePath wd home dir0) = "."
        · rw [if_pos hp] at hnone ⊢
          have hnone' : (mkdirStep M σ (resolvePath wd home dir0)).1 = none := hnone
          show statFS (mkdirStep M σ (resolvePath wd home dir0)).2
              (resolvePath wd home dir0) = some true
          exact mkdirStep_post hM hnone'
        · rw [if_neg hp] at hnone ⊢
          cases hpr : ensureRemoteDir M wd home f σ (pathDir (resolvePath wd home dir0)) with
          | mk ep σ1 =>
            rw [hpr] at hnone
            cases ep with
            | some e =>
              have hnone' : (some e : Option String) = none := hnone
              exact absurd hnone' (by simp)
            | none =>
              have hnone' : (mkdirStep M σ1 (resolvePath wd home dir0)).1 = none := hnone
              show statFS (mkdirStep M σ1 (resolvePath wd home dir0)).2
                  (resolvePath wd home dir0) = some true
              exact mkdirStep_post hM hnone'

theorem ensureRemoteDir_correct_witness :
    (ensureRemoteDir (fun σ p => (some ("EEXIST"), (p, true) :: σ)) ("/") none 1 [] ("/a")).1 =
        none ∧
      statFS
          (ensureRemoteDir (fun σ p => (none, (p, true) :: σ)) ("/") none 1 [] ("/a")).2
          (resolvePath ("/") none ("/a")) = some true := by
  constructor
  · exact (ensureRemoteDir_correct (fun σ p => (some ("EEXIST"), (p, true) :: σ)) ("/")
      none).1 0 [] ("/a")
      (fun hp => absurd (by decide : pathDir (resolvePath ("/") none ("/a")) = "/") (by
        intro h2
        exact hp (Or.inl h2)))
      (fun σ' _ => by simp [statFS])
  · exact (ensureRemoteDir_correct (fun σ p => (none, (p, true) :: σ)) ("/") none).2
      (fun σ' p _ => by simp [statFS]) 1 [] ("/a") (by decide)

theorem cleanSegsAux_normal_prefix {rooted : Bool} :
    ∀ (xs : List (List Char)), (∀ s ∈ xs, SegOK s ∧ s ≠ ddSeg) →
      ∀ (acc ys : List (List Char)),
        cleanSegsAux rooted acc (xs ++ ys) = cleanSegsAux rooted (xs.reverse ++ acc) ys
  | [], _, acc, ys => by simp
  | s :: rest, h, acc, ys => by
      obtain ⟨⟨hne, hdot, _⟩, hdd⟩ := h s (by simp)
      rw [List.cons_append, cleanSegsAux, cleanStep, if_neg (by simp [hne, hdot]), if_neg hdd,
        cleanSegsAux_normal_prefix rest (fun u hu => h u (by simp [hu])) (s :: acc) ys]
      simp

theorem cleanSegs_norm_trailing_empty {rooted : Bool} {segs : List (List Char)}
    (h : NormSegs rooted segs) : cleanSegs rooted (segs ++ [[]]) = segs := by
  obtain ⟨hok, k, tl, hdecomp, htl, hroot⟩ := h
  have htlok : ∀ s ∈ tl, SegOK s ∧ s ≠ ddSeg := fun s hs =>
    ⟨hok s (by rw [hdecomp]; exact List.mem_append_right _ hs), htl s hs⟩
  rw [hdecomp]
  cases rooted with
  | true =>
    rw [hroot rfl, List.replicate_zero, List.nil_append, cleanSegs,
      cleanSegsAux_normal_prefix tl htlok [] [[]], cleanSegsAux, cleanStep,
      if_pos (Or.inl rfl), cleanSegsAux]
    simp
  | false =>
    have hdds : cleanSegsAux false [] (List.replicate k ddSeg ++ (tl ++ [[]])) =
        cleanSegsAux false (List.replicate k ddSeg) (tl ++ [[]]) := by
      have h2 := cleanSegsAux_dds k 0 (tl ++ [[]])
      simpa using h2
    rw [List.append_assoc, cleanSegs, hdds,
      cleanSegsAux_normal_prefix tl htlok (List.replicate k ddSeg) [[]],
      cleanSegsAux, cleanStep, if_pos (Or.inl rfl), cleanSegsAux]
    simp [List.reverse_replicate]

theorem normSegs_dropLast {rooted : Bool} {segs : List (List Char)}
    (h : NormSegs rooted segs) : NormSegs rooted segs.dropLast := by
  obtain ⟨hok, k, tl, hdecomp, htl, hroot⟩ := h
  refine ⟨fun s hs => hok s ((List.dropLast_sublist segs).subset hs), ?_⟩
  cases htlnil : tl with
  | nil =>
    rw [htlnil, List.append_nil] at hdecomp
    refine ⟨k - 1, [], ?_, by simp, fun hr => by rw [hroot hr]⟩
    rw [hdecomp, List.dropLast_replicate, List.append_nil]
  | cons a b =>
    refine ⟨k, tl.dropLast, ?_, fun s hs => htl s ((List.dropLast_sublist tl).subset hs), hroot⟩
    rw [hdecomp, htlnil, List.dropLast_append_of_ne_nil _ (by simp), ← htlnil]

theorem countSlash_join :
    ∀ (parts : List (List Char)), parts ≠ [] → (∀ s ∈ parts, '/' ∉ s) →
      (joinSlash parts).count '/' = parts.length - 1
  | [], h, _ => absurd rfl h
  | [s], _, hs => by
      simp [joinSlash, List.count_eq_zero.mpr (hs s (by simp))]
  | s :: t :: rest, _, hs => by
      rw [joinSlash_cons_cons, List.count_append,
        List.count_eq_zero.mpr (hs s (by simp)),
        List.count_cons_self,
        countSlash_join (t :: rest) (by simp) (fun u hu => hs u (by simp [hu]))]
      simp

theorem pathDir_isCleanPath (y : String) : IsCleanPath (pathDir y) := by
  rw [pathDir, pathDirL]
  cases hsp : splitSlash y.data with
  | nil =>
    exact ⟨false, [], ⟨by simp, 0, [], by simp⟩, rfl⟩
  | cons p₁ ps =>
    cases ps with
    | nil =>
      exact ⟨false, [], ⟨by simp, 0, [], by simp⟩, rfl⟩
    | cons p₂ rest =>
      obtain ⟨rooted, segs, hnorm, heq⟩ :=
        pathCleanL_normal_form (joinSlash ((p₁ :: p₂ :: rest).dropLast) ++ ['/'])
      exact ⟨rooted, segs, hnorm, heq⟩

theorem parentChain_not_terminal :
    ∀ (fuel : Nat) (d x : String), x ∈ parentChain fuel d → x ≠ "/" ∧ x ≠ "."
  | 0, d, x, hx => by simp [parentChain] at hx
  | fuel + 1, d, x, hx => by
      rw [parentChain] at hx
      by_cases hterm : d = "/" ∨ d = "."
      · rw [if_pos hterm] at hx
        simp at hx
      · rw [if_neg hterm] at hx
        rcases List.mem_cons.mp hx with h | h
        · subst h
          push_neg at hterm
          exact hterm
        · exact parentChain_not_terminal fuel (pathDir d) x h

theorem parentChain_sub :
    ∀ (fuel : Nat) (d x : String), x ∈ parentChain fuel d → x = d ∨ ∃ y, x = pathDir y
  | 0, d, x, hx => by simp [parentChain] at hx
  | fuel + 1, d, x, hx => by
      rw [parentChain] at hx
      by_cases hterm : d = "/" ∨ d = "."
      · rw [if_pos hterm] at hx
        simp at hx
      · rw [if_neg hterm] at hx
        rcases List.mem_cons.mp hx with h | h
        · exact Or.inl h
        · rcases parentChain_sub fuel (pathDir d) x h with h2 | h2
          · exact Or.inr ⟨d, h2⟩
          · exact Or.inr h2

theorem cleanSegs_cons_empty (rooted : Bool) (ys : List (List Char)) :
    cleanSegs rooted ([] :: ys) = cleanSegs rooted ys := by
  rw [cleanSegs, cleanSegs, cleanSegsAux, cleanStep, if_pos (Or.inl rfl)]

theorem slash_free_trailing {rooted : Bool} {dl : List (List Char)}
    (h : NormSegs rooted dl) : ∀ s ∈ dl ++ [[]], '/' ∉ s := by
  intro s hs
  rcases List.mem_append.mp hs with h2 | h2
  · exact norm_slash_free h s h2
  · rw [List.mem_singleton.mp h2]
    simp

theorem pathCleanL_rooted_trailing {dl : List (List Char)} (hnormdl : NormSegs true dl)
    (hdl_ne : dl ≠ []) :
    pathCleanL ('/' :: joinSlash (dl ++ [[]])) = '/' :: joinSlash dl := by
  rw [pathCleanL, if_neg (by simp)]
  have hh : headIsSlash ('/' :: joinSlash (dl ++ [[]])) = true := by simp [headIsSlash]
  rw [hh, splitSlash_slash_cons,
    splitSlash_joinSlash (dl ++ [[]]) (by simp) (slash_free_trailing hnormdl),
    cleanSegs_cons_empty, cleanSegs_norm_trailing_empty hnormdl]
  rfl

theorem pathCleanL_rel_trailing {dl : List (List Char)} (hnormdl : NormSegs false dl)
    {d₁ : List Char} {dl' : List (List Char)} (hdleq : dl = d₁ :: dl') :
    pathCleanL (joinSlash (dl ++ [[]])) = joinSlash dl := by
  have hne : joinSlash (dl ++ [[]]) ≠ [] := by
    rw [joinSlash_append_single dl [] (by rw [hdleq]; simp)]
    simp
  have hd₁ : SegOK d₁ := hnormdl.1 d₁ (by rw [hdleq]; simp)
  have hh : headIsSlash (joinSlash (dl ++ [[]])) = false := by
    have hhead : (joinSlash (dl ++ [[]])).head? = d₁.head? := by
      rw [hdleq, List.cons_append]
      exact joinSlash_head (dl' ++ [[]]) hd₁.1
    cases hd₁c : d₁ with
    | nil => exact absurd hd₁c hd₁.1
    | cons c cs =>
      rw [hd₁c] at hhead
      exact headIsSlash_of_head hhead
        (fun hc => hd₁.2.2 (by rw [hd₁c, hc]; exact List.mem_cons_self _ _))
  have hjoin_ne2 : joinSlash dl ≠ [] := by
    rw [hdleq]
    exact joinSlash_ne_nil_of_norm (hdleq ▸ hnormdl)
  rw [pathCleanL, if_neg hne, hh,
    splitSlash_joinSlash (dl ++ [[]]) (by simp) (slash_free_trailing hnormdl),
    cleanSegs_norm_trailing_empty hnormdl, renderPath, if_neg (by simp), if_neg hjoin_ne2]

theorem pathDirL_of_split {l p₁ p₂ : List Char} {rest : List (List Char)}
    (hp : splitSlash l = p₁ :: p₂ :: rest) :
    pathDirL l = pathCleanL (joinSlash ((p₁ :: p₂ :: rest).dropLast) ++ ['/']) := by
  simp only [pathDirL, hp]

theorem pathDirL_of_single {l p₁ : List Char} (hp : splitSlash l = [p₁]) :
    pathDirL l = dotSeg := by
  simp only [pathDirL, hp]

/-- The crucial depth step: on any `Clean`-image path that is not `/` or
`.` and whose `path.Dir` is not `/` or `.` either, `path.Dir` strictly
decreases the number of `/` characters. -/
theorem pathDir_slash_lt {x : String} (hclean : IsCleanPath x) (hx1 : x ≠ "/") (hx2 : x ≠ ".")
    (hd1 : pathDir x ≠ "/") (hd2 : pathDir x ≠ ".") :
    slashCount (pathDir x) < slashCount x := by
  obtain ⟨rooted, segs, hnorm, hdata⟩ := hclean
  cases segs with
  | nil =>
    exfalso
    cases rooted with
    | true => exact hx1 (congrArg String.mk hdata)
    | false => exact hx2 (congrArg String.mk hdata)
  | cons s₁ rest =>
    cases rooted with
    | true =>
      have hdata' : x.data = '/' :: joinSlash (s₁ :: rest) := hdata
      have hsplit : splitSlash x.data = [] :: s₁ :: rest := by
        rw [hdata', splitSlash_slash_cons,
          splitSlash_joinSlash (s₁ :: rest) (by simp) (norm_slash_free hnorm)]
      cases rest with
      | nil =>
        exfalso
        apply hd1
        have hpd : pathDirL x.data = ['/'] := by
          rw [pathDirL_of_split hsplit]
          have h2 : pathCleanL (joinSlash (([] :: s₁ :: []).dropLast) ++ ['/']) =
              pathCleanL ['/'] := rfl
          rw [h2]
          decide
        exact congrArg String.mk hpd
      | cons s₂ rest2 =>
        have hdl_ne : (s₁ :: s₂ :: rest2).dropLast ≠ [] := by
          rw [List.dropLast_cons₂]
          simp
        have hnormdl : NormSegs true ((s₁ :: s₂ :: rest2).dropLast) := normSegs_dropLast hnorm
        have hpd : pathDirL x.data = '/' :: joinSlash ((s₁ :: s₂ :: rest2).dropLast) := by
          rw [pathDirL_of_split hsplit]
          have hdrop : ([] :: s₁ :: s₂ :: rest2).dropLast =
              [] :: (s₁ :: s₂ :: rest2).dropLast := by
            rw [List.dropLast_cons₂]
          rw [hdrop]
          have hjoin : joinSlash ([] :: (s₁ :: s₂ :: rest2).dropLast) ++ ['/'] =
              '/' :: joinSlash ((s₁ :: s₂ :: rest2).dropLast ++ [[]]) := by
            cases hdlc : (s₁ :: s₂ :: rest2).dropLast with
            | nil => exact absurd hdlc hdl_ne
            | cons d₁ dl' =>
              rw [joinSlash_cons_cons, ← hdlc,
                joinSlash_append_single ((s₁ :: s₂ :: rest2).dropLast) [] hdl_ne]
              simp
          rw [hjoin, pathCleanL_rooted_trailing hnormdl hdl_ne]
        have hcx : slashCount x = 1 + (rest2.length + 1) := by
          rw [slashCount, hdata', List.count_cons_self,
            countSlash_join (s₁ :: s₂ :: rest2) (by simp) (norm_slash_free hnorm)]
          simp
          omega
        have hcd : slashCount (pathDir x) = 1 + rest2.length := by
          have hdata2 : (pathDir x).data = pathDirL x.data := rfl
          rw [slashCount, hdata2, hpd, List.count_cons_self,
            countSlash_join ((s₁ :: s₂ :: rest2).dropLast)
              hdl_ne (norm_slash_free hnormdl), List.length_dropLast]
          simp
          omega
        omega
    | false =>
      have hjoin_ne : joinSlash (s₁ :: rest) ≠ [] := joinSlash_ne_nil_of_norm hnorm
      have hdata' : x.data = joinSlash (s₁ :: rest) := by
        rw [hdata, renderPath, if_neg (by simp), if_neg hjoin_ne]
      have hsplit : splitSlash x.data = s₁ :: rest := by
        rw [hdata', splitSlash_joinSlash (s₁ :: rest) (by simp) (norm_slash_free hnorm)]
      cases rest with
      | nil =>
        exfalso
        apply hd2
        have hpd : pathDirL x.data = ['.'] := pathDirL_of_single hsplit
        exact congrArg String.mk hpd
      | cons s₂ rest2 =>
        have hdl_ne : (s₁ :: s₂ :: rest2).dropLast ≠ [] := by
          rw [List.dropLast_cons₂]
          simp
        have hnormdl : NormSegs false ((s₁ :: s₂ :: rest2).dropLast) := normSegs_dropLast hnorm
        obtain ⟨d₁, dl', hdlc⟩ := List.exists_cons_of_ne_nil hdl_ne
        have hpd : pathDirL x.data = joinSlash ((s₁ :: s₂ :: rest2).dropLast) := by
          rw [pathDirL_of_split hsplit]
          have harg : joinSlash ((s₁ :: s₂ :: rest2).dropLast) ++ ['/'] =
              joinSlash ((s₁ :: s₂ :: rest2).dropLast ++ [[]]) :=
            (joinSlash_append_single ((s₁ :: s₂ :: rest2).dropLast) [] hdl_ne).symm
          rw [harg, pathCleanL_rel_trailing hnormdl hdlc]
        have hcx : slashCount x = rest2.length + 1 := by
          rw [slashCount, hdata',
            countSlash_join (s₁ :: s₂ :: rest2) (by simp) (norm_slash_free hnorm)]
          simp
        have hcd : slashCount (pathDir x) = rest2.length := by
          have hdata2 : (pathDir x).data = pathDirL x.data := rfl
          rw [slashCount, hdata2, hpd,
            countSlash_join ((s₁ :: s₂ :: rest2).dropLast)
              hdl_ne (norm_slash_free hnormdl), List.length_dropLast]
          simp
        omega

theorem chainInsert_mem :
    ∀ (fuel : Nat) (acc : List String) (d x : String),
      x ∈ chainInsert fuel acc d ↔ x ∈ acc ∨ x ∈ parentChain fuel d
  | 0, acc, d, x => by simp [chainInsert, parentChain]
  | fuel + 1, acc, d, x => by
      rw [chainInsert, parentChain]
      by_cases hterm : d = "/" ∨ d = "."
      · rw [if_pos hterm, if_pos hterm]
        simp
      · rw [if_neg hterm, if_neg hterm, chainInsert_mem fuel _ (pathDir d) x]
        by_cases hmem : d ∈ acc
        · rw [if_pos hmem]
          constructor
          · rintro (h | h)
            · exact Or.inl h
            · exact Or.inr (List.mem_cons_of_mem d h)
          · rintro (h | h)
            · exact Or.inl h
            · rcases List.mem_cons.mp h with h2 | h2
              · exact Or.inl (h2 ▸ hmem)
              · exact Or.inr h2
        · rw [if_neg hmem]
          constructor
          · rintro (h | h)
            · rcases List.mem_append.mp h with h2 | h2
              · exact Or.inl h2
              · exact Or.inr (List.mem_cons.mpr (Or.inl (List.mem_singleton.mp h2)))
            · exact Or.inr (List.mem_cons_of_mem d h)
          · rintro (h | h)
            · exact Or.inl (List.mem_append_left _ h)
            · rcases List.mem_cons.mp h with h2 | h2
              · exact Or.inl (List.mem_append_right _ (List.mem_singleton.mpr h2))
              · exact Or.inr h2

theorem chainInsert_nodup :
    ∀ (fuel : Nat) (acc : List String) (d : String), acc.Nodup →
      (chainInsert fuel acc d).Nodup
  | 0, _, _, h => h
  | fuel + 1, acc, d, h => by
      rw [chainInsert]
      by_cases hterm : d = "/" ∨ d = "."
      · rw [if_pos hterm]
        exact h
      · rw [if_neg hterm]
        apply chainInsert_nodup fuel
        by_cases hmem : d ∈ acc
        · rw [if_pos hmem]
          exact h
        · rw [if_neg hmem]
          simp [List.nodup_append, h, hmem]

theorem dirs_foldl_mem :
    ∀ (tasks : List transferTask) (acc : List String) (x : String),
      x ∈ tasks.foldl
          (fun acc t =>
            if t.isUpload then
              chainInsert (chainFuel (pathDir t.remotePath)) acc (pathDir t.remotePath)
            else acc) acc ↔
        x ∈ acc ∨ ∃ t ∈ tasks, t.isUpload = true ∧
          x ∈ parentChain (chainFuel (pathDir t.remotePath)) (pathDir t.remotePath)
  | [], acc, x => by simp
  | t :: rest, acc, x => by
      simp only [List.foldl_cons]
      by_cases hup : t.isUpload = true
      · rw [if_pos hup, dirs_foldl_mem rest _ x, chainInsert_mem]
        constructor
        · rintro ((h | h) | ⟨u, hu, hu2, hx⟩)
          · exact Or.inl h
          · exact Or.inr ⟨t, List.mem_cons_self t rest, hup, h⟩
          · exact Or.inr ⟨u, List.mem_cons_of_mem t hu, hu2, hx⟩
        · rintro (h | ⟨u, hu, hu2, hx⟩)
          · exact Or.inl (Or.inl h)
          · rcases List.mem_cons.mp hu with h2 | h2
            · subst h2
              exact Or.inl (Or.inr hx)
            · exact Or.inr ⟨u, h2, hu2, hx⟩
      · rw [if_neg hup, dirs_foldl_mem rest acc x]
        constructor
        · rintro (h | ⟨u, hu, hu2, hx⟩)
          · exact Or.inl h
          · exact Or.inr ⟨u, List.mem_cons_of_mem t hu, hu2, hx⟩
        · rintro (h | ⟨u, hu, hu2, hx⟩)
          · exact Or.inl h
          · rcases List.mem_cons.mp hu with h2 | h2
            · subst h2
              exact absurd hu2 hup
            · exact Or.inr ⟨u, h2, hu2, hx⟩

theorem dirs_foldl_nodup :
    ∀ (tasks : List transferTask) (acc : List String), acc.Nodup →
      (tasks.foldl
        (fun acc t =>
          if t.isUpload then
            chainInsert (chainFuel (pathDir t.remotePath)) acc (pathDir t.remotePath)
          else acc) acc).Nodup
  | [], _, h => h
  | t :: rest, acc, h => by
      simp only [List.foldl_cons]
      by_cases hup : t.isUpload = true
      · rw [if_pos hup]
        exact dirs_foldl_nodup rest _ (chainInsert_nodup _ acc _ h)
      · rw [if_neg hup]
        exact dirs_foldl_nodup rest acc h

theorem dirLt_trans {a b c : String} (h1 : dirLt a b) (h2 : dirLt b c) : dirLt a c := by
  rcases h1 with h1 | ⟨he1, hl1⟩
  · rcases h2 with h2 | ⟨he2, hl2⟩
    · exact Or.inl (h1.trans h2)
    · exact Or.inl (he2 ▸ h1)
  · rcases h2 with h2 | ⟨he2, hl2⟩
    · exact Or.inl (he1 ▸ h2)
    · exact Or.inr ⟨he1.trans he2, lt_trans hl1 hl2⟩

theorem dirLt_asymm {a b : String} (h1 : dirLt a b) (h2 : dirLt b a) : False := by
  rcases h1 with h1 | ⟨he1, hl1⟩ <;> rcases h2 with h2 | ⟨he2, hl2⟩
  · omega
  · omega
  · omega
  · exact absurd hl2 (lt_asymm hl1)

theorem dirLt_irrefl (a : String) : ¬ dirLt a a := fun h => dirLt_asymm h h

theorem dirLe_total (a b : String) : dirLe a b ∨ dirLe b a := by
  rcases Nat.lt_trichotomy (slashCount a) (slashCount b) with h | h | h
  · exact Or.inl (Or.inl (Or.inl h))
  · rcases lt_trichotomy a b with h2 | h2 | h2
    · exact Or.inl (Or.inl (Or.inr ⟨h, h2⟩))
    · exact Or.inl (Or.inr h2)
    · exact Or.inr (Or.inl (Or.inr ⟨h.symm, h2⟩))
  · exact Or.inr (Or.inl (Or.inl h))

theorem dirLe_trans {a b c : String} (h1 : dirLe a b) (h2 : dirLe b c) : dirLe a c := by
  rcases h1 with h1 | h1
  · rcases h2 with h2 | h2
    · exact Or.inl (dirLt_trans h1 h2)
    · exact Or.inl (h2 ▸ h1)
  · rcases h2 with h2 | h2
    · exact Or.inl (h1 ▸ h2)
    · exact Or.inr (h1.trans h2)

theorem pairwise_before {l : List String} (hp : List.Pairwise dirLt l) {a b : String}
    (ha : a ∈ l) (hb : b ∈ l) (hab : dirLt a b) :
    ∃ i j : Fin l.length, i < j ∧ l.get i = a ∧ l.get j = b := by
  obtain ⟨i, hi⟩ := List.mem_iff_get.mp ha
  obtain ⟨j, hj⟩ := List.mem_iff_get.mp hb
  have hget := List.pairwise_iff_get.mp hp
  rcases lt_trichotomy i j with h | h | h
  · exact ⟨i, j, h, hi, hj⟩
  · exfalso
    apply dirLt_irrefl a
    subst h
    rw [hi] at hj
    exact hj ▸ hab
  · exfalso
    exact dirLt_asymm hab (by rw [← hi, ← hj]; exact hget j i h)

/-- C4: `collectRemoteDirsForUpload` returns exactly the set of parent
directories obtained by walking each upload task's remote-path parent
chain up to `/` or `.`, without duplicates, strictly sorted ascending by
depth (count of `/`) and then lexicographically; consequently, whenever a
directory's own parent is present in the list, that parent appears at an
earlier position. -/
theorem collectRemoteDirs_correct (tasks : List transferTask) :
    (∀ x, x ∈ collectRemoteDirsForUpload tasks ↔
        ∃ t ∈ tasks, t.isUpload = true ∧
          x ∈ parentChain (chainFuel (pathDir t.remotePath)) (pathDir t.remotePath)) ∧
      (collectRemoteDirsForUpload tasks).Nodup ∧
      List.Pairwise dirLt (collectRemoteDirsForUpload tasks) ∧
      (∀ d, d ∈ collectRemoteDirsForUpload tasks →
        pathDir d ∈ collectRemoteDirsForUpload tasks →
        ∃ i j : Fin (collectRemoteDirsForUpload tasks).length,
          i < j ∧ (collectRemoteDirsForUpload tasks).get i = pathDir d ∧
            (collectRemoteDirsForUpload tasks).get j = d) := by
  haveI htotal : IsTotal String dirLe := ⟨dirLe_total⟩
  haveI htrans : IsTrans String dirLe := ⟨fun _ _ _ => dirLe_trans⟩
  have hunfold : collectRemoteDirsForUpload tasks =
      List.insertionSort dirLe
        (tasks.foldl
          (fun acc t =>
            if t.isUpload then
              chainInsert (chainFuel (pathDir t.remotePath)) acc (pathDir t.remotePath)
            else acc) []) := rfl
  have hmem : ∀ x, x ∈ collectRemoteDirsForUpload tasks ↔
      ∃ t ∈ tasks, t.isUpload = true ∧
        x ∈ parentChain (chainFuel (pathDir t.remotePath)) (pathDir t.remotePath) := by
    intro x
    rw [hunfold, List.mem_insertionSort, dirs_foldl_mem tasks [] x]
    simp
  have hnodup : (collectRemoteDirsForUpload tasks).Nodup := by
    rw [hunfold]
    exact (List.perm_insertionSort dirLe _).nodup_iff.mpr
      (dirs_foldl_nodup tasks [] List.nodup_nil)
  have hpair : List.Pairwise dirLt (collectRemoteDirsForUpload tasks) := by
    have hsorted : List.Pairwise dirLe (collectRemoteDirsForUpload tasks) := by
      rw [hunfold]
      exact List.sorted_insertionSort dirLe _
    exact (hsorted.and hnodup).imp (fun hab => hab.1.resolve_right hab.2)
  refine ⟨hmem, hnodup, hpair, ?_⟩
  intro d hd hpd
  have hprops : ∀ x, x ∈ collectRemoteDirsForUpload tasks →
      (x ≠ "/" ∧ x ≠ ".") ∧ IsCleanPath x := by
    intro x hx
    obtain ⟨t, _, _, hchain⟩ := (hmem x).mp hx
    refine ⟨parentChain_not_terminal _ _ _ hchain, ?_⟩
    rcases parentChain_sub _ _ _ hchain with h | ⟨y, hy⟩
    · rw [h]
      exact pathDir_isCleanPath _
    · rw [hy]
      exact pathDir_isCleanPath y
  have h1 := hprops d hd
  have h2 := hprops (pathDir d) hpd
  have hlt : dirLt (pathDir d) d :=
    Or.inl (pathDir_slash_lt h1.2 h1.1.1 h1.1.2 h2.1.1 h2.1.2)
  exact pairwise_before hpair hpd hd hlt

theorem collectRemoteDirs_correct_witness :
    ∃ i j : Fin (collectRemoteDirsForUpload [⟨"a.txt", "/r/s/a.txt", true, 1⟩]).length,
      i < j ∧
        (collectRemoteDirsForUpload [⟨"a.txt", "/r/s/a.txt", true, 1⟩]).get i =
          pathDir ("/r/s") ∧
        (collectRemoteDirsForUpload [⟨"a.txt", "/r/s/a.txt", true, 1⟩]).get j = "/r/s" :=
  (collectRemoteDirs_correct [⟨"a.txt", "/r/s/a.txt", true, 1⟩]).2.2.2 ("/r/s")
    (by decide) (by decide)

example : pathClean ("/a/../b") = "/b" := by decide
example : pathClean ("a//b/./../c") = "a/c" := by decide
example : pathClean ("/../../a") = "/a" := by decide
example : pathClean ("a/../..") = ".." := by decide
example : pathClean ("") = "." := by decide
example : pathClean ("/") = "/" := by decide
example : pathDir ("/a/b") = "/a" := by decide
example : pathDir ("/a") = "/" := by decide
example : pathDir ("a") = "." := by decide
example : pathDir ("a//b") = "a" := by decide
example : pathJoin ("/a/b") ("c/d") = "/a/b/c/d" := by decide
example : resolvePath ("/a/b") (some ("/home/u")) ("c/d") = "/a/b/c/d" := by decide
example : resolvePath ("/a/b") (some ("/home/u")) ("~/e") = "/home/u/e" := by decide
